import Mathlib

/-!
Verification model of the SnapperGPS snapshot-processing backend
(`core/backend.py`).

Pure Python code is translated into Lean functions.  The external
collaborators of the core — terrain elevation lookup
(`ep.get_elevation`), satellite acquisition (`ep.acquisition_simplified`),
coarse-time positioning (`ctn.positioning_simplified`), the
frequency-bias-estimation primitive
(`fb.estimate_frequency_bias_minimal_wrapper`) and per-day ephemeris
loading (`np.load` of `YYYY_DDD_{G,E,C}.npy`) — are modelled as oracle
parameters, matching the interface contracts of the specification.

NumPy float64 scalars that may be NaN or infinite are modelled by
`EFloat`: an exact rational extended with `nan` / `inf` / `ninf`.
Arithmetic on finite values is exact rather than rounded; the special
values follow IEEE-754 / NumPy propagation rules for the operations the
backend actually performs.

Calendar days are modelled as integers (days since the epoch); a UTC
timestamp is an integer count of nanoseconds since the epoch, and
`np.datetime64(t, 'D')` is floor division by the nanoseconds per day.
The `YYYY_DDD` file-name key used by the navigation-data loader is a
bijective re-encoding of that day integer, so the ephemeris oracle is
keyed directly by the day.
-/

namespace Snapper

/-- Model of a NumPy float64 scalar: an exact rational, or one of the
non-finite values NaN, +inf, -inf. -/
inductive EFloat
  | nan
  | inf
  | ninf
  | val (q : ℚ)
deriving DecidableEq, Repr

namespace EFloat

/-- Model of `np.isfinite` on a scalar. -/
def isfinite : EFloat → Bool
  | val _ => true
  | _ => false

/-- Model of `np.isnan` on a scalar. -/
def isNan : EFloat → Bool
  | nan => true
  | _ => false

/-- IEEE-754 addition on extended values (exact on finite values). -/
def add : EFloat → EFloat → EFloat
  | nan, _ => nan
  | _, nan => nan
  | inf, ninf => nan
  | ninf, inf => nan
  | inf, _ => inf
  | _, inf => inf
  | ninf, _ => ninf
  | _, ninf => ninf
  | val a, val b => val (a + b)

/-- Add a (finite) rational constant to an extended value. -/
def addQ (x : EFloat) (q : ℚ) : EFloat := x.add (val q)

/-- Divide an extended value by a positive natural number (used for
`np.mean` and the midpoint step of `np.median`). -/
def divNat : EFloat → ℕ → EFloat
  | nan, _ => nan
  | inf, _ => inf
  | ninf, _ => ninf
  | val q, n => val (q / n)

/-- IEEE-754 `<=` comparison as NumPy evaluates it: any comparison with
NaN is false. -/
def leB : EFloat → EFloat → Bool
  | nan, _ => false
  | _, nan => false
  | ninf, _ => true
  | _, inf => true
  | inf, _ => false
  | val _, ninf => false
  | val a, val b => decide (a ≤ b)

/-- Rank used by NumPy's sort order: `-inf < finite < +inf < nan`
(NaN values are sorted to the end). -/
def rank : EFloat → ℕ
  | ninf => 0
  | val _ => 1
  | inf => 2
  | nan => 3

/-- Finite payload of an extended value (0 for the special values);
only used to order finite values within `rank`-equal classes. -/
def sval : EFloat → ℚ
  | val q => q
  | _ => 0

/-- Total sort order on extended values matching NumPy's sort:
`-inf < finite (by value) < +inf < nan`. -/
def sle (a b : EFloat) : Prop :=
  rank a < rank b ∨ (rank a = rank b ∧ sval a ≤ sval b)

instance : DecidableRel sle := fun a b => by
  unfold sle; infer_instance

end EFloat

/-- Model of `np.median`: NaN if the list is empty or contains a NaN
(NumPy checks the last element of the partially sorted array);
otherwise the middle element of the sorted list, or the mean of the two
middle elements for even length. -/
def npMedian (l : List EFloat) : EFloat :=
  if l.any EFloat.isNan ∨ l = [] then EFloat.nan
  else
    let s := List.insertionSort EFloat.sle l
    let n := l.length
    if n % 2 = 1 then s.getD (n / 2) EFloat.nan
    else ((s.getD (n / 2 - 1) EFloat.nan).add (s.getD (n / 2) EFloat.nan)).divNat 2

/-- Model of `np.mean`: sum divided by length (NaN on an empty list). -/
def npMean (l : List EFloat) : EFloat :=
  if l = [] then EFloat.nan
  else (l.foldl EFloat.add (EFloat.val 0)).divNat l.length

/-- Model of `np.nextafter(0, 1)`: the smallest positive double,
`2 ^ (-1074)`, represented exactly. -/
def nextafterZero : EFloat := EFloat.val (1 / 2 ^ 1074)

/-- The nominal intermediate frequency, 4.092 MHz (`4.092e6`). -/
def nominalIF : ℚ := 4092000

/-- The nominal intermediate frequency as an extended float. -/
def nominalIFE : EFloat := EFloat.val nominalIF

/-- Number of bytes per snapshot (`6138 = 4092000 * 12e-3 / 8`). -/
def bytesPerSnapshot : ℕ := 6138

/-- Model of `np.unpackbits(..., bitorder='little')` on one byte:
eight bits, least-significant first, each mapped by
`signals = -2 * bits + 1` to a chip in `{+1, -1}` (bit 0 gives `+1`,
bit 1 gives `-1`). -/
def decodeByte (b : ℕ) : List ℤ :=
  (List.range 8).map fun j => 1 - 2 * (((b >>> j) % 2 : ℕ) : ℤ)

/-- Decode one row (one snapshot) of raw bytes into its chip sequence:
bytes in order, each unpacked least-significant-bit first. -/
def decodeRow (bs : List ℕ) : List ℤ :=
  (bs.map decodeByte).flatten

/-- Fuel-driven worker for `chunksOf` (the fuel only serves structural
termination; one chunk of `k ≥ 1` elements is split off per step, so a
fuel of the list length always suffices). -/
def chunksOfF (k : ℕ) : ℕ → List α → List (List α)
  | _, [] => []
  | 0, _ :: _ => []
  | fuel + 1, a :: t =>
    if k = 0 then []
    else (a :: t).take k :: chunksOfF k fuel ((a :: t).drop k)

/-- Split a flat list into consecutive chunks of `k` elements
(model of `reshape((-1, k))`; the byte counts fed to it in the backend
are always multiples of `k`). -/
def chunksOf (k : ℕ) (l : List α) : List (List α) :=
  chunksOfF k l.length l

/-- Model of
`np.frombuffer(slice, dtype='>u1').reshape((-1, 6138))` followed by
`np.unpackbits(..., bitorder='little')` and `-2 * signals + 1`:
the 2-D chip matrix, one row of `6138 * 8` chips per snapshot. -/
def signalsOf (bytes : List ℕ) : List (List ℤ) :=
  (chunksOf bytesPerSnapshot bytes).map decodeRow

/-- Python slice `l[a : b]` for non-negative indices (clamping at the
end of the list, as Python and NumPy slicing do). -/
def pySlice (l : List α) (a b : ℕ) : List α :=
  (l.drop a).take (b - a)

/-- The sizes of the acquisition batches of a day with `n` snapshots and
maximum batch size `m`: the backend's
`batch_size = min(n_snapshots_day - n_snapshots_processed_day, max_batch_size)`
loop.  The fuel argument only serves structural termination: every
step removes `min n m ≥ 1` snapshots, so a fuel of `n` suffices. -/
def batchSizesF (m : ℕ) : ℕ → ℕ → List ℕ
  | _, 0 => []
  | 0, _ + 1 => []
  | fuel + 1, n =>
    if m = 0 then []
    else min n m :: batchSizesF m fuel (n - min n m)

/-- The sizes of the acquisition batches of a day with `n` snapshots
and maximum batch size `m`.  The NumPy default `max_batch_size =
np.inf` corresponds to any `m ≥ n`.  (With `m = 0` the Python loop
would not terminate; the model returns `[]` in that unreachable
configuration.) -/
def batchSizes (n m : ℕ) : List ℕ :=
  batchSizesF m n n

/-- Fuel irrelevance for `batchSizesF` when `m ≥ 1`: any fuel of at
least `n` computes `batchSizes n m`. -/
theorem batchSizesF_eq (m : ℕ) (hm : 1 ≤ m) (f1 f2 n : ℕ) (h1 : n ≤ f1) (h2 : n ≤ f2) :
    batchSizesF m f1 n = batchSizesF m f2 n := by
  induction f1 generalizing f2 n with
  | zero =>
    have : n = 0 := by omega
    subst this
    cases f2 <;> rfl
  | succ f1 ih =>
    cases n with
    | zero => cases f2 <;> rfl
    | succ n =>
      cases f2 with
      | zero => omega
      | succ f2 =>
        simp only [batchSizesF]
        rw [if_neg (by omega), if_neg (by omega)]
        have hmin : 1 ≤ min (n + 1) m := by omega
        rw [ih f2 (n + 1 - min (n + 1) m) (by omega) (by omega)]

/-- Unfolding rule for `batchSizes` (`m ≥ 1`): nothing is left for
`n = 0`, otherwise one batch of `min n m` snapshots followed by the
batches of the remaining `n - min n m`. -/
theorem batchSizes_eq (n m : ℕ) (hm : 1 ≤ m) :
    batchSizes n m =
      if n = 0 then [] else min n m :: batchSizes (n - min n m) m := by
  cases n with
  | zero => rfl
  | succ n =>
    simp only [batchSizes, batchSizesF, if_neg (by omega : ¬m = 0),
      if_neg (by omega : ¬n + 1 = 0)]
    rw [batchSizesF_eq m hm n (n + 1 - min (n + 1) m) (n + 1 - min (n + 1) m) (by omega) (by omega)]

/-- Merge of per-batch detection snapshot indices into day-global
indices: batch `i`'s indices are shifted by
`sum(batch_size_list[:i])` and the batches are concatenated in order
(`snapshot_idx_list[batch_idx][gnss] += sum(batch_size_list[:batch_idx])`
followed by `np.concatenate`). -/
def mergedIdx (batches : List (List ℕ)) (sizes : List ℕ) : List ℕ :=
  (batches.mapIdx fun i b => b.map (· + (sizes.take i).sum)).flatten

/-- Model of
`snr[np.logical_not(np.isfinite(snr))] = np.nextafter(0, 1)`:
replace every non-finite SNR entry by the smallest positive double. -/
def clampSnr (l : List EFloat) : List EFloat :=
  l.map fun x => if x.isfinite then x else nextafterZero

/-- NumPy slice assignment `arr[off : off + vals.length] = vals` (for
the conforming-length calls the backend makes; an overhanging
assignment is truncated to the array length). -/
def sliceAssign (arr : List α) (off : ℕ) (vals : List α) : List α :=
  (arr.take off ++ vals ++ arr.drop (off + vals.length)).take arr.length

/-- Model of `np.where(mask)[0]`: the indices at which a boolean mask
is true, in increasing order. -/
def whereTrue (m : List Bool) : List ℕ :=
  (List.range m.length).filter fun i => m.getD i false

/-- Fuel-driven worker for `uniqFA` (the fuel only serves structural
termination: each step consumes at least the head element, so a fuel
of the list length always suffices). -/
def uniqFAF : ℕ → List ℤ → List ℤ
  | _, [] => []
  | 0, _ :: _ => []
  | fuel + 1, a :: t => a :: uniqFAF fuel (t.filter (· ≠ a))

/-- The distinct values of a list in order of first appearance: the
combined effect of `np.unique(date_array, return_index=True)` (each
distinct value once, with the index of its first occurrence),
`np.sort(unique_date_idx)` and indexing `date_array` back with the
sorted first-occurrence indices. -/
def uniqFA (l : List ℤ) : List ℤ :=
  uniqFAF l.length l

/-- Fuel irrelevance for `uniqFAF`: any fuel of at least the list
length computes `uniqFA`. -/
theorem uniqFAF_eq (f1 f2 : ℕ) (l : List ℤ) (h1 : l.length ≤ f1) (h2 : l.length ≤ f2) :
    uniqFAF f1 l = uniqFAF f2 l := by
  induction f1 generalizing f2 l with
  | zero =>
    have : l = [] := List.length_eq_zero.mp (by omega)
    subst this
    cases f2 <;> rfl
  | succ f1 ih =>
    cases l with
    | nil => cases f2 <;> rfl
    | cons a t =>
      cases f2 with
      | zero => simp at h2
      | succ f2 =>
        simp only [uniqFAF]
        have hf := List.length_filter_le (fun x => decide (x ≠ a)) t
        simp only [List.length_cons] at h1 h2
        rw [ih f2 (t.filter (· ≠ a)) (by omega) (by omega)]

/-- Unfolding rule for `uniqFA` on a cons cell. -/
theorem uniqFA_cons (a : ℤ) (t : List ℤ) :
    uniqFA (a :: t) = a :: uniqFA (t.filter (· ≠ a)) := by
  have hf := List.length_filter_le (fun x => decide (x ≠ a)) t
  simp only [uniqFA, List.length_cons, uniqFAF]
  rw [uniqFAF_eq t.length (t.filter (· ≠ a)).length (t.filter (· ≠ a)) (by omega) (by omega)]

/-- Nanoseconds per day (timestamps are modelled in `datetime64[ns]`). -/
def nsPerDay : ℤ := 86400000000000

/-- Model of `np.datetime64(t, 'D')`: truncation of a UTC timestamp to
its calendar day, i.e. floor division by the nanoseconds per day. -/
def dayOf (t : ℤ) : ℤ := t / nsPerDay

/-- The three constellations the backend loads navigation data for:
GPS (`'G'`), Galileo (`'E'`), BeiDou (`'C'`) — a fixed closed set. -/
inductive Gnss
  | G
  | E
  | C
deriving DecidableEq, Repr

/-- The order in which the backend iterates the constellations
(`for gnss in ['G', 'E', 'C']`, and therefore also the insertion order
of `eph_dict`). -/
def gnssOrder : List Gnss := [.G, .E, .C]

/-- A pre-processed ephemeris table for one constellation and one day,
represented column-wise: one column of satellite orbital/clock
parameters per satellite, addressable by index
(`eph_dict[gnss][:, eph_idx]` is column selection, `np.hstack` is
column concatenation). -/
def EphTable : Type := List (List ℚ)

instance : DecidableEq EphTable := by
  unfold EphTable; infer_instance

/-- Column selection `table[:, idx]`. -/
def ephSelect (t : EphTable) (idx : List ℕ) : EphTable :=
  idx.map fun j => t.getD j []

/-- Input record of one call to the acquisition primitive
`ep.acquisition_simplified` made by the per-day batch loop (the Doppler
search grid of that loop is the fixed `np.linspace(-200, 200, 9)`). -/
structure AcqIn where
  signals : List (List ℤ)
  times : List ℤ
  latitude : EFloat
  longitude : EFloat
  height : EFloat
  eph : EphTable
  gnss : Gnss
  ifreq : List EFloat
  binsLo : ℚ
  binsHi : ℚ
  binsCount : ℕ

/-- Output of one acquisition call: per-detection snapshot index
(batch-local), PRN, code phase, SNR, and the referenced ephemeris column
indices. -/
structure AcqResult where
  snapshot_idx : List ℕ
  prn : List ℕ
  code_phase : List EFloat
  snr : List EFloat
  eph_idx : List ℕ
deriving DecidableEq, Repr

/-- The carry-state `ctn.state` written by the positioning primitive
after each day and read back at the start of each subsequent day. -/
structure CtnState where
  n_failed : ℕ
  latitude : EFloat
  longitude : EFloat
  height : EFloat
  time_error : EFloat
  last_plausible_utc : Option ℤ
deriving DecidableEq, Repr

/-- Input record of one call to the positioning primitive
`ctn.positioning_simplified`: the merged per-constellation detection
dictionaries (as association lists over the constellations available
that day), the day's timestamp slice, the current reference position,
the carry-state, and the fixed configuration. -/
structure PosCall where
  avail : List Gnss
  snapshot_idx : List (Gnss × List ℕ)
  prn : List (Gnss × List ℕ)
  code_phase : List (Gnss × List EFloat)
  snr : List (Gnss × List EFloat)
  eph : List (Gnss × EphTable)
  times : List ℤ
  latitude : EFloat
  longitude : EFloat
  height : EFloat
  ls_mode : String
  mle : Bool
  max_sat_count : ℕ
  max_dist : EFloat
  max_time : EFloat
  time_error : EFloat
  n_failed : ℕ
  last_plausible_utc : Option ℤ
  max_vel : EFloat
  max_time_drift : EFloat
deriving DecidableEq

/-- Output of one positioning call: the per-snapshot fixes for the day
plus the updated carry-state (the assignment to `ctn.state` performed
inside `positioning_simplified`). -/
structure DayOut where
  latitude : List EFloat
  longitude : List EFloat
  datetime : List ℤ
  uncertainty : List EFloat
  state : CtnState
deriving DecidableEq, Repr

/-- Input record of one sample drawn by the frequency-bias estimator:
the global snapshot index it reads, the search-window bounds (offsets
from the nominal intermediate frequency) and bin count passed to
acquisition, and the assumed-correct reference position.  The sample
value abstracts `ep.acquisition_simplified` over the available
constellations followed by
`fb.estimate_frequency_bias_minimal_wrapper`. -/
structure FbIn where
  idx : ℕ
  binsLo : EFloat
  binsHi : EFloat
  binsCount : ℕ
  latitude : ℚ
  longitude : ℚ
  height : EFloat
deriving DecidableEq, Repr

/-- The external collaborators of the core, as oracles. -/
structure Oracles where
  elev : ℚ → ℚ → EFloat
  eph : ℤ → Gnss → Option EphTable
  acq : AcqIn → AcqResult
  fb : FbIn → EFloat
  pos : PosCall → DayOut

/-- Caller-facing arguments of `process_snapshots`.  `interFreq = none`
models `intermediate_frequency=None`; `maxBatch` models
`max_batch_size` (the default `np.inf` corresponds to any value
`≥ n_snapshots`). -/
structure Args where
  snapshots : List ℕ
  datetimes : List ℤ
  lat : ℚ
  lon : ℚ
  interFreq : Option ℚ
  maxBatch : ℕ
  temps : Option (List ℚ)
  maxVel : ℚ

/-- Python-level failures `process_snapshots` can raise in the model:
the explicit buffer-size `ValueError`, the `TypeError` from unpacking a
bare scalar returned by `_estimate_intermediate_frequency2`, and the
`NameError` that function hits on an empty input (`inliers` is never
assigned). -/
inductive PyErr
  | sizeMismatch
  | unpackTypeError
  | nameError
deriving DecidableEq, Repr

/-- Result record of a successful `process_snapshots` run, together
with the trace of positioning calls the run made (one per processed
day, in order). -/
structure RunResult where
  latitude : List EFloat
  longitude : List EFloat
  datetime : List ℤ
  uncertainty : List EFloat
  frequency_offset : EFloat
  posCalls : List PosCall
deriving DecidableEq

instance : Inhabited EFloat := ⟨EFloat.nan⟩

instance : Inhabited CtnState :=
  ⟨{ n_failed := 0, latitude := EFloat.nan, longitude := EFloat.nan,
     height := EFloat.nan, time_error := EFloat.nan, last_plausible_utc := none }⟩

instance : Inhabited AcqResult :=
  ⟨{ snapshot_idx := [], prn := [], code_phase := [], snr := [], eph_idx := [] }⟩

/-- Lookup in a constellation-keyed dictionary (association list). -/
def dictGet (l : List (Gnss × β)) (g : Gnss) (dflt : β) : β :=
  match l.find? (fun p => p.1 == g) with
  | some p => p.2
  | none => dflt

/-- Trace record of one iteration of the sampling loop of
`_estimate_intermediate_frequency2`: the values the loop body read and
computed, in source order. -/
structure EstIter where
  idx : ℕ
  entryFe : EFloat
  entryInliers : ℕ
  binsLo : EFloat
  binsHi : EFloat
  binsCount : ℕ
  sample : EFloat
  postMedian : EFloat
  postMask : List Bool
  postInliers : ℕ
  padded : List EFloat
  newFe : EFloat
deriving DecidableEq, Repr, Inhabited

/-- Loop-carried state of `_estimate_intermediate_frequency2`:
`n_snapshots_processed`, `frequency_error_list`, `frequency_error`,
`n_inliers`, the `inliers` mask (unassigned before the first
iteration), and the iteration trace. -/
structure EstState where
  total : ℕ
  samples : List EFloat
  fe : EFloat
  nInliers : ℕ
  mask : Option (List Bool)
  trace : List EstIter
deriving DecidableEq

/-- One iteration of the sampling loop (lines 626-699 of
`core/backend.py`), as a trace record: shrink the search window around
the current frequency-error estimate, draw one frequency-error sample
(the acquisition + frequency-bias primitives, abstracted by the `fb`
oracle keyed by the global snapshot index), append it, recompute the
median and the ±25 Hz inlier mask against the new median, left-pad the
inlier subset with zeros to `min(5, len(date_array))` elements, and
take its mean as the new frequency-error estimate. -/
def estIterOf (o : Oracles) (a : Args) (height : EFloat) (st : EstState) : EstIter :=
  let w : ℚ := 1300 - 150 * ((min st.nInliers 4 : ℕ) : ℚ)
  let lo := st.fe.addQ (-w)
  let hi := st.fe.addQ w
  let s := o.fb { idx := st.total, binsLo := lo, binsHi := hi, binsCount := 53,
                  latitude := a.lat, longitude := a.lon, height := height }
  let samples := st.samples ++ [s]
  let med := npMedian samples
  let mask := samples.map fun x =>
    EFloat.leB (med.addQ (-25)) x && EFloat.leB x (med.addQ 25)
  let nIn := mask.count true
  let inl := (samples.zip mask).filterMap fun p => if p.2 then some p.1 else none
  let padded := List.replicate (min 5 a.datetimes.length - nIn) (EFloat.val 0) ++ inl
  let fe2 := npMean padded
  { idx := st.total, entryFe := st.fe, entryInliers := st.nInliers,
    binsLo := lo, binsHi := hi, binsCount := 53, sample := s,
    postMedian := med, postMask := mask, postInliers := nIn, padded := padded,
    newFe := fe2 }

/-- The state update performed by one iteration of the sampling loop:
one more snapshot processed, the sample appended, the new estimate,
inlier count and mask installed, the iteration appended to the trace. -/
def estStep (o : Oracles) (a : Args) (height : EFloat) (st : EstState) : EstState :=
  let it := estIterOf o a height st
  { total := st.total + 1
    samples := st.samples ++ [it.sample]
    fe := it.newFe
    nInliers := it.postInliers
    mask := some it.postMask
    trace := st.trace ++ [it] }

/-- The estimator's within-day `while` loop: continue while snapshots
of the day remain (the fuel argument), fewer than 5 inliers have been
seen, and fewer than 100 snapshots have been processed in total. -/
def estRunDay (o : Oracles) (a : Args) (height : EFloat) : ℕ → EstState → EstState
  | 0, st => st
  | r + 1, st =>
    if st.nInliers < 5 ∧ st.total < 100 then
      estRunDay o a height r (estStep o a height st)
    else st

/-- The estimator's loop over the distinct days (first-appearance
order).  Returns `true` together with the state reached if the
function bails out with the bare `return intermediate_frequency`
because some day has no ephemeris data for any constellation. -/
def estRunDays (o : Oracles) (a : Args) (height : EFloat) (dates : List ℤ) :
    List ℤ → EstState → Bool × EstState
  | [], st => (false, st)
  | d :: rest, st =>
    let avail := gnssOrder.filter fun g => (o.eph d g).isSome
    if avail = [] then (true, st)
    else estRunDays o a height dates rest (estRunDay o a height (dates.count d) st)

/-- The possible outcomes of `_estimate_intermediate_frequency2`: the
normal `(intermediate_frequency, np.where(inliers)[0])` pair, the bare
scalar `return intermediate_frequency` taken when a day has no
ephemeris data at all, and the `NameError` on an empty input
(`inliers` is then never assigned). -/
inductive EstOut
  | bare (f : EFloat)
  | pair (f : EFloat) (used : List ℕ)
  | nameErr
deriving DecidableEq

/-- The initial loop state of the estimator: nothing processed, zero
frequency error, zero inliers, `inliers` not yet assigned. -/
def estInit : EstState :=
  { total := 0, samples := [], fe := EFloat.val 0, nInliers := 0,
    mask := none, trace := [] }

/-- Model of `_estimate_intermediate_frequency2`, returning its outcome
together with the final loop state (for observation in proofs). -/
def estimateIF (o : Oracles) (a : Args) (height : EFloat) : EstOut × EstState :=
  let dates := a.datetimes.map dayOf
  let (bare, st) := estRunDays o a height dates (uniqFA dates) estInit
  if bare then (.bare nominalIFE, st)
  else
    match st.mask with
    | none => (.nameErr, st)
    | some m =>
      (.pair (if st.fe.isfinite then nominalIFE.add st.fe else nominalIFE)
        (whereTrue m), st)

/-- The merged, day-global detection data of one constellation after
the per-batch outputs are combined (lines 345-366 of
`core/backend.py`). -/
structure Merged where
  idx : List ℕ
  prn : List ℕ
  cp : List EFloat
  snr : List EFloat
  eph : EphTable

/-- Loop-carried state of the per-day loop of `process_snapshots`:
the processed-snapshot cursor, the `initialize` flag, the `ctn.state`
global (unset before the first positioning call), the four output
arrays, and the trace of positioning calls made so far. -/
structure LoopSt where
  cursor : ℕ
  initFlag : Bool
  ctnState : Option CtnState
  latOut : List EFloat
  lonOut : List EFloat
  dtOut : List ℤ
  uncOut : List EFloat
  calls : List PosCall

/-- The cursor used for a day's buffer reads, timestamp slices and
output writes: lines 196-206 of `core/backend.py` advance
`n_snapshots_processed` by the day's snapshot count *before* the rest
of the day's processing whenever no constellation has ephemeris data
for the day (the original early return is commented out and there is
no `continue`, so the code falls through with the advanced cursor). -/
def dayCursor (o : Oracles) (d : ℤ) (nDay : ℕ) (st : LoopSt) : ℕ :=
  if gnssOrder.filter (fun g => (o.eph d g).isSome) = [] then st.cursor + nDay
  else st.cursor

/-- The input record of the positioning call made for one day: the
per-batch acquisition loop (lines 239-340), the merge of per-batch
detections (lines 345-366), and the arguments of
`ctn.positioning_simplified` (lines 375-421), including the INIT /
CONTINUE selection of the carry-state (lines 212-227). -/
def dayCall (o : Oracles) (a : Args) (height0 : EFloat) (ifArr : List EFloat)
    (d : ℤ) (nDay : ℕ) (st : LoopSt) : PosCall :=
  let avail := gnssOrder.filter fun g => (o.eph d g).isSome
  let cursor := dayCursor o d nDay st
  let s := st.ctnState.getD default
  let lat := if st.initFlag then EFloat.val a.lat else s.latitude
  let lon := if st.initFlag then EFloat.val a.lon else s.longitude
  let hgt := if st.initFlag then height0 else s.height
  let sizes := batchSizes nDay a.maxBatch
  let batchAt : ℕ → ℕ → List (Gnss × AcqResult) := fun p b =>
    let sig := signalsOf (pySlice a.snapshots
      ((cursor + p) * bytesPerSnapshot) ((cursor + p + b) * bytesPerSnapshot))
    let ts := pySlice a.datetimes (cursor + p) (cursor + p + b)
    let ifs := pySlice ifArr (cursor + p) (cursor + p + b)
    avail.map fun g =>
      (g, o.acq { signals := sig, times := ts, latitude := lat, longitude := lon,
                  height := hgt, eph := (o.eph d g).getD [], gnss := g, ifreq := ifs,
                  binsLo := -200, binsHi := 200, binsCount := 9 })
  let batchResults : List (List (Gnss × AcqResult)) :=
    sizes.mapIdx fun i b => batchAt ((sizes.take i).sum) b
  let mergedFor : Gnss → Merged := fun g =>
    { idx := mergedIdx (batchResults.map fun br => (dictGet br g default).snapshot_idx) sizes
      prn := (batchResults.map fun br => (dictGet br g default).prn).flatten
      cp := (batchResults.map fun br => (dictGet br g default).code_phase).flatten
      snr := clampSnr ((batchResults.map fun br => (dictGet br g default).snr).flatten)
      eph := (batchResults.map fun br =>
        ephSelect ((o.eph d g).getD []) (dictGet br g default).eph_idx).flatten }
  { avail := avail
    snapshot_idx := avail.map fun g => (g, (mergedFor g).idx)
    prn := avail.map fun g => (g, (mergedFor g).prn)
    code_phase := avail.map fun g => (g, (mergedFor g).cp)
    snr := avail.map fun g => (g, (mergedFor g).snr)
    eph := avail.map fun g => (g, (mergedFor g).eph)
    times := pySlice a.datetimes cursor (cursor + nDay)
    latitude := lat
    longitude := lon
    height := hgt
    ls_mode := "snr"
    mle := true
    max_sat_count := 15
    max_dist := EFloat.val 10000
    max_time := EFloat.val 30
    time_error := if st.initFlag then EFloat.val 0 else s.time_error
    n_failed := if st.initFlag then 0 else s.n_failed
    last_plausible_utc := if st.initFlag then (none : Option ℤ) else s.last_plausible_utc
    max_vel := EFloat.val a.maxVel
    max_time_drift := EFloat.inf }

/-- Processing of one day inside `process_snapshots`
(lines 157-438 of `core/backend.py`), faithfully including the
behaviour when no constellation has ephemeris data for the day: the
code then only advances `n_snapshots_processed` by the day's snapshot
count (line 206) and falls through — the batch loop, the merge and the
positioning call still run, now reading buffer, timestamp and
intermediate-frequency slices at the already-advanced cursor, writing
the day's outputs at the advanced offset, and advancing the cursor a
second time at line 438. -/
def processDay (o : Oracles) (a : Args) (height0 : EFloat) (ifArr : List EFloat)
    (d : ℤ) (nDay : ℕ) (st : LoopSt) : LoopSt :=
  let call := dayCall o a height0 ifArr d nDay st
  let outd := o.pos call
  let cursor := dayCursor o d nDay st
  { cursor := cursor + nDay
    initFlag := false
    ctnState := some outd.state
    latOut := sliceAssign st.latOut cursor outd.latitude
    lonOut := sliceAssign st.lonOut cursor outd.longitude
    dtOut := sliceAssign st.dtOut cursor outd.datetime
    uncOut := sliceAssign st.uncOut cursor outd.uncertainty
    calls := st.calls ++ [call] }

/-- The loop over the distinct days in first-appearance order. -/
def processDays (o : Oracles) (a : Args) (height0 : EFloat) (ifArr : List EFloat)
    (dates : List ℤ) : List ℤ → LoopSt → LoopSt
  | [], st => st
  | d :: rest, st =>
    processDays o a height0 ifArr dates rest
      (processDay o a height0 ifArr d (dates.count d) st)

/-- Temperature compensation of the estimated intermediate frequency
(lines 127-134 of `core/backend.py`): if a temperature array was given
and at least one inlier snapshot was used, shift the per-snapshot
intermediate frequency by `-12 Hz/°C` relative to the mean temperature
of the inlier snapshots; otherwise use a constant array. -/
def tempAdjust (a : Args) (f : EFloat) (used : List ℕ) : List EFloat :=
  match a.temps with
  | some T =>
    if used.length > 0 then
      let tref : ℚ := (used.map fun i => T.getD i 0).sum / (used.length : ℚ)
      T.map fun t => f.addQ (-12 * (t - tref))
    else List.replicate a.datetimes.length f
  | none => List.replicate a.datetimes.length f

/-- Output-array initialisation (NaN latitude/longitude, copied
timestamps, Inf uncertainty; lines 139-143) followed by the loop over
the distinct calendar days and the assembly of the returned record. -/
def runDays (a : Args) (o : Oracles) (off : EFloat) (ifArr : List EFloat) : RunResult :=
  let n := a.datetimes.length
  let dates := a.datetimes.map dayOf
  let st0 : LoopSt :=
    { cursor := 0, initFlag := true, ctnState := none,
      latOut := List.replicate n EFloat.nan,
      lonOut := List.replicate n EFloat.nan,
      dtOut := a.datetimes,
      uncOut := List.replicate n EFloat.inf,
      calls := [] }
  let fin := processDays o a (o.elev a.lat a.lon) ifArr dates (uniqFA dates) st0
  { latitude := fin.latOut, longitude := fin.lonOut, datetime := fin.dtOut,
    uncertainty := fin.uncOut, frequency_offset := off, posCalls := fin.calls }

/-- Everything `process_snapshots` does after the buffer-size check:
elevation lookup, intermediate-frequency resolution (caller-supplied
or estimated, with optional temperature compensation), and the per-day
processing. -/
def processSnapshotsBody (a : Args) (o : Oracles) : Except PyErr RunResult :=
  match a.interFreq with
  | some f =>
    .ok (runDays a o (EFloat.val (f - nominalIF))
      (List.replicate a.datetimes.length (EFloat.val f)))
  | none =>
    match estimateIF o a (o.elev a.lat a.lon) with
    | (.bare _, _) => .error .unpackTypeError
    | (.nameErr, _) => .error .nameError
    | (.pair f used, _) =>
      .ok (runDays a o (f.addQ (-nominalIF)) (tempAdjust a f used))

/-- Model of `process_snapshots` (`core/backend.py`, lines 26-441):
the buffer-size precondition check (`ValueError` on mismatch) followed
by the body.  Errors model the Python exceptions. -/
def processSnapshots (a : Args) (o : Oracles) : Except PyErr RunResult :=
  if a.snapshots.length ≠ a.datetimes.length * bytesPerSnapshot then .error .sizeMismatch
  else processSnapshotsBody a o

/-- On a size-conforming input, `process_snapshots` proceeds to its
body. -/
theorem processSnapshots_of_len (a : Args) (o : Oracles)
    (h : a.snapshots.length = a.datetimes.length * bytesPerSnapshot) :
    processSnapshots a o = processSnapshotsBody a o := by
  simp [processSnapshots, h]

instance : Inhabited PosCall :=
  ⟨{ avail := [], snapshot_idx := [], prn := [], code_phase := [], snr := [],
     eph := [], times := [], latitude := EFloat.nan, longitude := EFloat.nan,
     height := EFloat.nan, ls_mode := "", mle := false, max_sat_count := 0,
     max_dist := EFloat.nan, max_time := EFloat.nan, time_error := EFloat.nan,
     n_failed := 0, last_plausible_utc := none, max_vel := EFloat.nan,
     max_time_drift := EFloat.nan }⟩

/-!
## Concrete fixtures used by witnesses and counterexamples
-/

/-- A trivial positioning oracle output. -/
def trivDayOut : DayOut :=
  { latitude := [], longitude := [], datetime := [], uncertainty := [],
    state := default }

/-- A positioning oracle that marks its answers: latitude 7 for a call
with an empty detection dictionary (a day with no constellation
available), latitude 9 otherwise, always of the length of the timestamp
slice it was handed. -/
def markingPos : PosCall → DayOut := fun c =>
  { latitude := List.replicate c.times.length
      (EFloat.val (if c.avail = [] then 7 else 9))
    longitude := List.replicate c.times.length (EFloat.val 0)
    datetime := c.times
    uncertainty := List.replicate c.times.length (EFloat.val 1)
    state := default }

/-- Fixture input: four snapshots, two on day 0 and two on day 1. -/
def fixArgs4 : Args :=
  { snapshots := List.replicate (4 * bytesPerSnapshot) 0
    datetimes := [0, 1, nsPerDay, nsPerDay + 1]
    lat := 0, lon := 0, interFreq := some 4092000, maxBatch := 10
    temps := none, maxVel := 4 }

/-- Fixture oracles: ephemeris only for GPS on day 1 (so day 0 has no
constellation at all), no detections, marking positioning oracle. -/
def fixOracles4 : Oracles :=
  { elev := fun _ _ => EFloat.val 0
    eph := fun d g => if d = 1 ∧ g = Gnss.G then some [] else none
    acq := fun _ => default
    fb := fun _ => EFloat.nan
    pos := markingPos }

/-- Fixture input: two snapshots, one on day 0 and one on day 1,
intermediate frequency unset. -/
def fixArgs2 : Args :=
  { snapshots := List.replicate (2 * bytesPerSnapshot) 0
    datetimes := [0, nsPerDay]
    lat := 0, lon := 0, interFreq := none, maxBatch := 10
    temps := none, maxVel := 4 }

/-- Fixture oracles: ephemeris only for GPS on day 0, every
frequency-bias sample equal to 100 Hz. -/
def fixOracles2 : Oracles :=
  { elev := fun _ _ => EFloat.val 0
    eph := fun d g => if d = 0 ∧ g = Gnss.G then some [] else none
    acq := fun _ => default
    fb := fun _ => EFloat.val 100
    pos := markingPos }

/-- Fixture input: two snapshots on the same day 0, intermediate
frequency unset. -/
def fixArgs2s : Args :=
  { fixArgs2 with datetimes := [0, 1] }

/-- Fixture oracles: ephemeris for GPS on every day, every
frequency-bias sample equal to 100 Hz. -/
def fixOracles2s : Oracles :=
  { fixOracles2 with eph := fun _ g => if g = Gnss.G then some [] else none }

/-!
## C2 — buffer-size precondition
-/

/-- C2: for every input whose snapshot buffer length differs from
`snapshot_count * 6138`, `process_snapshots` fails with the size
error before any other processing (the result is the size error for
every choice of the external collaborators, so none of them can have
been consulted) and produces no output arrays; when the lengths match,
the size error is never raised. -/
theorem c2_size_precondition (a : Args) (o : Oracles) :
    (a.snapshots.length ≠ a.datetimes.length * bytesPerSnapshot →
      processSnapshots a o = .error .sizeMismatch) ∧
    (a.snapshots.length = a.datetimes.length * bytesPerSnapshot →
      processSnapshots a o ≠ .error .sizeMismatch) := by
  constructor
  · intro h
    simp [processSnapshots, h]
  · intro h
    rw [processSnapshots_of_len a o h]
    simp only [processSnapshotsBody]
    rcases a.interFreq with _ | f
    · rcases hE : estimateIF o a (o.elev a.lat a.lon) with ⟨out, st⟩
      rcases out with f | ⟨f, used⟩ | _ <;> simp
    · simp

/-- Witness for C2: a two-timestamp input with a buffer one byte short
is rejected with the size error. -/
theorem c2_size_precondition_witness :
    processSnapshots
      { fixArgs4 with datetimes := [0, 1],
                      snapshots := List.replicate (2 * bytesPerSnapshot - 1) 0 }
      fixOracles4 = .error .sizeMismatch :=
  (c2_size_precondition _ fixOracles4).1 (by
    show (List.replicate (2 * bytesPerSnapshot - 1) (0 : ℕ)).length
      ≠ [(0 : ℤ), 1].length * bytesPerSnapshot
    rw [List.length_replicate]
    decide)

/-!
## C9 — snapshot decoder
-/

/-- Chips per byte: `decodeByte` always yields 8 chips. -/
theorem decodeByte_length (b : ℕ) : (decodeByte b).length = 8 := by
  simp [decodeByte]

/-- Auxiliary: position `8 * i + j` of a decoded row is bit `j`
(least-significant first) of byte `i`, mapped to `1 - 2 * bit`. -/
theorem decodeRow_getD (bs : List ℕ) :
    ∀ i j, i < bs.length → j < 8 →
      (decodeRow bs).getD (8 * i + j) 0
        = 1 - 2 * (((bs.getD i 0 >>> j) % 2 : ℕ) : ℤ) := by
  induction bs with
  | nil => intro i j hi _; simp at hi
  | cons b t ih =>
    intro i j hi hj
    have hrow : decodeRow (b :: t) = decodeByte b ++ decodeRow t := by
      simp [decodeRow]
    rcases i with _ | i
    · rw [hrow, List.getD_append _ _ _ _ (by rw [decodeByte_length]; omega)]
      simp only [Nat.mul_zero, Nat.zero_add, List.getD_cons_zero]
      rw [List.getD_eq_getElem _ _ (by rw [decodeByte_length]; omega)]
      simp [decodeByte]
    · rw [hrow, List.getD_append_right _ _ _ _ (by rw [decodeByte_length]; omega)]
      rw [decodeByte_length]
      have h8 : 8 * (i + 1) + j - 8 = 8 * i + j := by omega
      rw [h8]
      simpa using ih i j (by simpa using hi) hj

/-- C9: the decoder unpacks each byte into 8 chips,
least-significant-bit first, mapping bit 0 to `+1` and bit 1 to `-1`;
every decoded chip is exactly `+1` or `-1`, and a row of `n` bytes
yields `8 * n` chips. -/
theorem c9_chip_decoding (bs : List ℕ) :
    (∀ x ∈ decodeRow bs, x = 1 ∨ x = -1) ∧
    (∀ i j, i < bs.length → j < 8 →
      (decodeRow bs).getD (8 * i + j) 0
        = 1 - 2 * (((bs.getD i 0 >>> j) % 2 : ℕ) : ℤ)) ∧
    (decodeRow bs).length = 8 * bs.length := by
  refine ⟨?_, decodeRow_getD bs, ?_⟩
  · intro x hx
    simp only [decodeRow, decodeByte, List.mem_flatten, List.mem_map] at hx
    obtain ⟨l, ⟨b, _, rfl⟩, hxl⟩ := hx
    obtain ⟨j, _, rfl⟩ := List.mem_map.mp hxl
    rcases Nat.mod_two_eq_zero_or_one (b >>> j) with h | h <;> rw [h] <;> omega
  · induction bs with
    | nil => simp [decodeRow]
    | cons b t ih =>
      have hrow : decodeRow (b :: t) = decodeByte b ++ decodeRow t := by
        simp [decodeRow]
      rw [hrow]
      simp only [List.length_append, decodeByte_length, ih, List.length_cons]
      ring

/-- Witness for C9: byte 6 (binary `00000110`) decodes at bit
positions 0 and 1 as claimed, and every chip of its row is `±1`. -/
theorem c9_chip_decoding_witness :
    ((1 : ℤ) = 1 ∨ (1 : ℤ) = -1) ∧
    (decodeRow [6]).getD (8 * 0 + 1) 0
      = 1 - 2 * (((List.getD [6] 0 0 >>> 1) % 2 : ℕ) : ℤ) :=
  ⟨(c9_chip_decoding [6]).1 1 (by decide),
   (c9_chip_decoding [6]).2.1 0 1 (by decide) (by decide)⟩

/-!
## C3 — batch sizes and the merge of per-batch detections
-/

/-- The batch sizes of a day with `n` snapshots sum to `n`. -/
theorem batchSizes_sum (n m : ℕ) (hm : 1 ≤ m) : (batchSizes n m).sum = n := by
  induction n using Nat.strong_induction_on with
  | _ n ih =>
    rw [batchSizes_eq n m hm]
    by_cases h0 : n = 0
    · simp [h0]
    · rw [if_neg h0]
      simp only [List.sum_cons]
      rw [ih (n - min n m) (by omega)]
      omega

/-- Every batch size is at most `max_batch_size`. -/
theorem batchSizes_le (n m : ℕ) (hm : 1 ≤ m) : ∀ b ∈ batchSizes n m, b ≤ m := by
  induction n using Nat.strong_induction_on with
  | _ n ih =>
    rw [batchSizes_eq n m hm]
    by_cases h0 : n = 0
    · simp [h0]
    · rw [if_neg h0]
      intro b hb
      rcases List.mem_cons.mp hb with rfl | hb
      · omega
      · exact ih (n - min n m) (by omega) b hb

/-- A prefix sum never exceeds the total sum (natural numbers). -/
theorem sum_take_le (l : List ℕ) (i : ℕ) : (l.take i).sum ≤ l.sum := by
  conv_rhs => rw [← List.take_append_drop i l]
  rw [List.sum_append]
  omega

/-- Shifting every batch of a merged index computation by a common
offset `s` commutes with the merge. -/
theorem flatten_mapIdx_shift (bs : List (List ℕ)) (s : ℕ) (f : ℕ → ℕ) :
    (List.mapIdx (fun i x => x.map (· + (s + f i))) bs).flatten
      = ((List.mapIdx (fun i x => x.map (· + f i)) bs).flatten).map (· + s) := by
  induction bs generalizing f with
  | nil => simp
  | cons b bs ih =>
    simp only [List.mapIdx_cons, List.flatten_cons, List.map_append, List.map_map]
    congr 1
    · apply List.map_congr_left
      intro x _
      simp only [Function.comp_apply]
      omega
    · exact ih fun i => f (i + 1)

/-- Unfolding rule for `mergedIdx`: the first batch is unshifted, all
later batches are additionally shifted by the first batch size. -/
theorem mergedIdx_cons (b : List ℕ) (bs : List (List ℕ)) (s : ℕ) (ss : List ℕ) :
    mergedIdx (b :: bs) (s :: ss) = b ++ (mergedIdx bs ss).map (· + s) := by
  unfold mergedIdx
  rw [List.mapIdx_cons]
  simp only [List.flatten_cons, List.take_succ_cons, List.sum_cons, List.take_zero,
    List.sum_nil, Nat.add_zero]
  congr 1
  · simp
  · have := flatten_mapIdx_shift bs s fun i => (ss.take i).sum
    simpa using this

/-- Length and day-global validity of the merged snapshot indices,
given batch-locally valid acquisition outputs. -/
theorem mergedIdx_spec (batches : List (List ℕ)) (sizes : List ℕ)
    (h : List.Forall₂ (fun b s => ∀ x ∈ b, x < s) batches sizes) :
    (mergedIdx batches sizes).length = (batches.map List.length).sum ∧
    ∀ x ∈ mergedIdx batches sizes, x < sizes.sum := by
  induction h with
  | nil => simp [mergedIdx]
  | @cons b s bs ss hb hrest ih =>
    rw [mergedIdx_cons]
    constructor
    · simp [ih.1]
    · intro x hx
      rcases List.mem_append.mp hx with hx | hx
      · have := hb x hx
        simp only [List.sum_cons]
        omega
      · obtain ⟨y, hy, rfl⟩ := List.mem_map.mp hx
        have := ih.2 y hy
        simp only [List.sum_cons]
        omega

/-- C3: for a day of `n` snapshots with maximum batch size `m ≥ 1`,
the batch loop produces sizes that are each at most `m` and at most
the day's remaining snapshot count and that sum to `n`; and merging
batch-locally valid detection snapshot indices (each index below its
batch's size) by shifting batch `i` by the cumulative size of batches
`0..i-1` and concatenating in batch order yields day-global indices
that never reach `n`. -/
theorem c3_batching_and_merge (n m : ℕ) (hm : 1 ≤ m) (batches : List (List ℕ))
    (hloc : List.Forall₂ (fun b s => ∀ x ∈ b, x < s) batches (batchSizes n m)) :
    (batchSizes n m).sum = n ∧
    (∀ b ∈ batchSizes n m, b ≤ m) ∧
    (∀ i, i < (batchSizes n m).length →
      (batchSizes n m).getD i 0 ≤ n - ((batchSizes n m).take i).sum) ∧
    (mergedIdx batches (batchSizes n m)).length = (batches.map List.length).sum ∧
    (∀ x ∈ mergedIdx batches (batchSizes n m), x < n) := by
  have hsum := batchSizes_sum n m hm
  have hspec := mergedIdx_spec batches (batchSizes n m) hloc
  refine ⟨hsum, batchSizes_le n m hm, ?_, hspec.1, ?_⟩
  · intro i hi
    have h2 : ((batchSizes n m).take (i + 1)).sum ≤ n := by
      have := sum_take_le (batchSizes n m) (i + 1)
      omega
    have h3 := List.sum_take_succ (batchSizes n m) i hi
    have h4 := List.getD_eq_getElem (batchSizes n m) 0 hi
    omega
  · intro x hx
    have := hspec.2 x hx
    omega

/-- Witness for C3: a day of 3 snapshots with maximum batch size 2 is
split into batches of sizes `[2, 1]`, and batch-local indices
`[[0, 1], [0]]` merge to day-global indices below 3. -/
theorem c3_batching_and_merge_witness :
    (batchSizes 3 2).sum = 3 ∧
    (∀ b ∈ batchSizes 3 2, b ≤ 2) ∧
    (∀ i, i < (batchSizes 3 2).length →
      (batchSizes 3 2).getD i 0 ≤ 3 - ((batchSizes 3 2).take i).sum) ∧
    (mergedIdx [[0, 1], [0]] (batchSizes 3 2)).length
      = ([[0, 1], [0]].map List.length).sum ∧
    (∀ x ∈ mergedIdx [[0, 1], [0]] (batchSizes 3 2), x < 3) :=
  c3_batching_and_merge 3 2 (by decide) [[0, 1], [0]] (by
    have h32 : batchSizes 3 2 = [2, 1] := by decide
    rw [h32]
    exact .cons (by decide) (.cons (by decide) .nil))

/-!
## C1 — a day with no ephemeris data at all
-/

set_option maxRecDepth 4000 in
/-- C1 (behaviour of the code at the failing input): on a run of four
snapshots, two on day 0 (no ephemeris for any constellation) and two
on day 1 (GPS ephemeris present), with a caller-supplied intermediate
frequency and a positioning oracle that answers latitude 7 to any call
carrying an empty detection dictionary and latitude 9 otherwise:

* a positioning call *is* made for the ephemeris-less day 0 (first
  trace entry, empty constellation list), and it is handed day 1's
  timestamp slice `[ns_per_day, ns_per_day + 1]` because the cursor was
  already advanced at line 206 of `core/backend.py`;
* day 1's own call receives an empty timestamp slice (the cursor
  having been advanced twice by then, past the end of the input);
* day 0's output slots keep the defaults (NaN, Inf), while day 1's
  output slots receive the outputs of the *day-0* call (latitude 7).

The claim instead requires that no fix be attempted for day 0, that
the cursor advance by exactly day 0's snapshot count, and that day 1's
outputs be produced by day 1's own call at the correct offsets. -/
theorem c1_no_ephemeris_day_fallthrough :
    ((processSnapshots fixArgs4 fixOracles4).toOption.map fun r =>
      (r.latitude, r.uncertainty, r.posCalls.map fun c => (c.avail, c.times))) =
    some ([EFloat.nan, EFloat.nan, EFloat.val 7, EFloat.val 7],
          [EFloat.inf, EFloat.inf, EFloat.val 1, EFloat.val 1],
          [([], [nsPerDay, nsPerDay + 1]), ([Gnss.G], [])]) := by
  rw [processSnapshots_of_len _ _ (by
    show (List.replicate (4 * bytesPerSnapshot) (0 : ℕ)).length = _
    rw [List.length_replicate]
    rfl)]
  decide

/-!
## C8 — the positioning state machine
-/

/-- The fixed configuration `process_snapshots` passes to every
positioning call (lines 396-421 of `core/backend.py`). -/
def FixedCfg (a : Args) (c : PosCall) : Prop :=
  c.ls_mode = "snr" ∧ c.mle = true ∧ c.max_sat_count = 15 ∧
  c.max_dist = EFloat.val 10000 ∧ c.max_time = EFloat.val 30 ∧
  c.max_vel = EFloat.val a.maxVel ∧ c.max_time_drift = EFloat.inf

/-- The INIT state passed on the first day of a run: zero time error,
zero failures, no last plausible fix, the caller-supplied initial
position and the looked-up initial height. -/
def InitCall (a : Args) (h0 : EFloat) (c : PosCall) : Prop :=
  c.time_error = EFloat.val 0 ∧ c.n_failed = 0 ∧ c.last_plausible_utc = none ∧
  c.latitude = EFloat.val a.lat ∧ c.longitude = EFloat.val a.lon ∧ c.height = h0

/-- The CONTINUE state: every carried field of call `c` equals the
corresponding field of the carry-state returned by the positioning
primitive for the previous call `p`. -/
def CarriedFrom (o : Oracles) (p c : PosCall) : Prop :=
  c.time_error = (o.pos p).state.time_error ∧
  c.n_failed = (o.pos p).state.n_failed ∧
  c.last_plausible_utc = (o.pos p).state.last_plausible_utc ∧
  c.latitude = (o.pos p).state.latitude ∧
  c.longitude = (o.pos p).state.longitude ∧
  c.height = (o.pos p).state.height

/-- Loop invariant of the per-day loop: all calls so far carry the
fixed configuration, the first call is an INIT call, consecutive calls
are chained through the positioning primitive's carry-state, and the
`initialize` flag / `ctn.state` global are consistent with the call
trace. -/
def LoopInv (o : Oracles) (a : Args) (h0 : EFloat) (st : LoopSt) : Prop :=
  (∀ c ∈ st.calls, FixedCfg a c) ∧
  (∀ c, st.calls.head? = some c → InitCall a h0 c) ∧
  List.Chain' (CarriedFrom o) st.calls ∧
  ((st.initFlag = true ∧ st.calls = [] ∧ st.ctnState = none) ∨
   (st.initFlag = false ∧ ∃ p, st.calls.getLast? = some p ∧
      st.ctnState = some ((o.pos p).state)))

theorem processDay_calls (o : Oracles) (a : Args) (h0 : EFloat) (ifArr : List EFloat)
    (d : ℤ) (nDay : ℕ) (st : LoopSt) :
    (processDay o a h0 ifArr d nDay st).calls
      = st.calls ++ [dayCall o a h0 ifArr d nDay st] := rfl

theorem processDay_ctn (o : Oracles) (a : Args) (h0 : EFloat) (ifArr : List EFloat)
    (d : ℤ) (nDay : ℕ) (st : LoopSt) :
    (processDay o a h0 ifArr d nDay st).ctnState
      = some ((o.pos (dayCall o a h0 ifArr d nDay st)).state) := rfl

theorem processDay_initFlag (o : Oracles) (a : Args) (h0 : EFloat) (ifArr : List EFloat)
    (d : ℤ) (nDay : ℕ) (st : LoopSt) :
    (processDay o a h0 ifArr d nDay st).initFlag = false := rfl

/-- Every positioning call carries the fixed configuration. -/
theorem dayCall_cfg (o : Oracles) (a : Args) (h0 : EFloat) (ifArr : List EFloat)
    (d : ℤ) (nDay : ℕ) (st : LoopSt) :
    FixedCfg a (dayCall o a h0 ifArr d nDay st) :=
  ⟨rfl, rfl, rfl, rfl, rfl, rfl, rfl⟩

/-- On the first day (the `initialize` flag still set), the call
carries the INIT state. -/
theorem dayCall_init (o : Oracles) (a : Args) (h0 : EFloat) (ifArr : List EFloat)
    (d : ℤ) (nDay : ℕ) (st : LoopSt) (h : st.initFlag = true) :
    InitCall a h0 (dayCall o a h0 ifArr d nDay st) := by
  simp [dayCall, InitCall, h]

/-- On a subsequent day, the call carries exactly the carry-state the
positioning primitive returned for the previous call. -/
theorem dayCall_cont (o : Oracles) (a : Args) (h0 : EFloat) (ifArr : List EFloat)
    (d : ℤ) (nDay : ℕ) (st : LoopSt) (p : PosCall) (h : st.initFlag = false)
    (hc : st.ctnState = some ((o.pos p).state)) :
    CarriedFrom o p (dayCall o a h0 ifArr d nDay st) := by
  simp [dayCall, CarriedFrom, h, hc]

/-- One day of processing preserves the loop invariant. -/
theorem processDay_inv (o : Oracles) (a : Args) (h0 : EFloat) (ifArr : List EFloat)
    (d : ℤ) (nDay : ℕ) (st : LoopSt) (h : LoopInv o a h0 st) :
    LoopInv o a h0 (processDay o a h0 ifArr d nDay st) := by
  obtain ⟨hcfg, hinit, hchain, hstate⟩ := h
  refine ⟨?_, ?_, ?_, ?_⟩
  · intro c hc
    rw [processDay_calls] at hc
    rcases List.mem_append.mp hc with hc | hc
    · exact hcfg c hc
    · rw [List.mem_singleton.mp hc]
      exact dayCall_cfg o a h0 ifArr d nDay st
  · intro c hc
    rw [processDay_calls] at hc
    cases hcs : st.calls with
    | nil =>
      rw [hcs] at hc
      simp only [List.nil_append, List.head?_cons, Option.some.injEq] at hc
      rcases hstate with ⟨hflag, _, _⟩ | ⟨_, p, hlast, _⟩
      · rw [← hc]
        exact dayCall_init o a h0 ifArr d nDay st hflag
      · rw [hcs] at hlast
        simp at hlast
    | cons c0 cs =>
      rw [hcs] at hc
      simp only [List.cons_append, List.head?_cons, Option.some.injEq] at hc
      apply hinit
      rw [hcs, List.head?_cons, hc]
  · rw [processDay_calls, List.chain'_append]
    refine ⟨hchain, List.chain'_singleton _, ?_⟩
    intro x hx y hy
    simp only [List.head?_cons, Option.mem_def, Option.some.injEq] at hy
    rcases hstate with ⟨_, hcalls, _⟩ | ⟨hflag, p, hlast, hctn⟩
    · rw [hcalls] at hx
      simp at hx
    · rw [hlast] at hx
      simp only [Option.mem_def, Option.some.injEq] at hx
      rw [← hy, ← hx]
      exact dayCall_cont o a h0 ifArr d nDay st p hflag hctn
  · right
    refine ⟨processDay_initFlag o a h0 ifArr d nDay st,
      dayCall o a h0 ifArr d nDay st, ?_, processDay_ctn o a h0 ifArr d nDay st⟩
    rw [processDay_calls]
    exact List.getLast?_concat _

/-- The loop over the days preserves the invariant and makes exactly
one positioning call per day. -/
theorem processDays_inv (o : Oracles) (a : Args) (h0 : EFloat) (ifArr : List EFloat)
    (dates : List ℤ) (uds : List ℤ) (st : LoopSt) (h : LoopInv o a h0 st) :
    LoopInv o a h0 (processDays o a h0 ifArr dates uds st) ∧
    (processDays o a h0 ifArr dates uds st).calls.length
      = st.calls.length + uds.length := by
  induction uds generalizing st with
  | nil => exact ⟨h, rfl⟩
  | cons d rest ih =>
    simp only [processDays]
    have h1 := processDay_inv o a h0 ifArr d (dates.count d) st h
    obtain ⟨h2, h3⟩ := ih (processDay o a h0 ifArr d (dates.count d) st) h1
    refine ⟨h2, ?_⟩
    rw [h3, processDay_calls]
    simp only [List.length_append, List.length_cons, List.length_nil]
    omega

/-- The state-machine properties of the call trace of a completed run
(for any frequency offset and intermediate-frequency array). -/
theorem runDays_state_machine (a : Args) (o : Oracles) (off : EFloat) (ifArr : List EFloat) :
    (runDays a o off ifArr).posCalls.length
      = (uniqFA (a.datetimes.map dayOf)).length ∧
    (∀ c ∈ (runDays a o off ifArr).posCalls, FixedCfg a c) ∧
    (∀ c, (runDays a o off ifArr).posCalls.head? = some c →
      InitCall a (o.elev a.lat a.lon) c) ∧
    List.Chain' (CarriedFrom o) (runDays a o off ifArr).posCalls := by
  have h0inv : LoopInv o a (o.elev a.lat a.lon)
      { cursor := 0, initFlag := true, ctnState := none,
        latOut := List.replicate a.datetimes.length EFloat.nan,
        lonOut := List.replicate a.datetimes.length EFloat.nan,
        dtOut := a.datetimes,
        uncOut := List.replicate a.datetimes.length EFloat.inf,
        calls := [] } := by
    refine ⟨by simp, by simp, by simp, Or.inl ⟨rfl, rfl, rfl⟩⟩
  have := processDays_inv o a (o.elev a.lat a.lon) ifArr (a.datetimes.map dayOf)
    (uniqFA (a.datetimes.map dayOf)) _ h0inv
  obtain ⟨⟨hcfg, hinit, hchain, _⟩, hlen⟩ := this
  exact ⟨by simpa [runDays] using hlen, hcfg, hinit, hchain⟩

/-- C8: a successful run makes exactly one positioning call per
distinct day; the first call passes time error 0, failure count 0, no
last plausible timestamp and the caller-supplied initial position;
every later call passes exactly the carry-state the positioning
primitive returned for the previous day; and every call carries the
fixed configuration (satellite cap 15, max displacement 10 km, max
time gap 30 s, max speed `max_velocity` with its caller-overridable
default, unbounded clock drift, SNR weighting, MLE fallback on). -/
theorem c8_positioning_state_machine (a : Args) (o : Oracles) (r : RunResult)
    (h : processSnapshots a o = .ok r) :
    r.posCalls.length = (uniqFA (a.datetimes.map dayOf)).length ∧
    (∀ c ∈ r.posCalls, FixedCfg a c) ∧
    (∀ c, r.posCalls.head? = some c → InitCall a (o.elev a.lat a.lon) c) ∧
    List.Chain' (CarriedFrom o) r.posCalls := by
  unfold processSnapshots at h
  by_cases hlen : a.snapshots.length ≠ a.datetimes.length * bytesPerSnapshot
  · rw [if_pos hlen] at h
    exact absurd h (by simp)
  · rw [if_neg hlen] at h
    unfold processSnapshotsBody at h
    rcases hIF : a.interFreq with _ | f
    · rw [hIF] at h
      rcases hE : estimateIF o a (o.elev a.lat a.lon) with ⟨out, st⟩
      rw [hE] at h
      rcases out with f | ⟨f, used⟩ | _
      · simp at h
      · simp only [Except.ok.injEq] at h
        rw [← h]
        exact runDays_state_machine a o _ _
      · simp at h
    · rw [hIF] at h
      simp only [Except.ok.injEq] at h
      rw [← h]
      exact runDays_state_machine a o _ _

instance : Inhabited RunResult :=
  ⟨{ latitude := [], longitude := [], datetime := [], uncertainty := [],
     frequency_offset := EFloat.nan, posCalls := [] }⟩

instance {ε α : Type} [DecidableEq ε] [DecidableEq α] : DecidableEq (Except ε α) :=
  fun x y =>
    match x, y with
    | .error e, .error f =>
      if h : e = f then .isTrue (by rw [h])
      else .isFalse (by intro hc; apply h; injection hc)
    | .ok a, .ok b =>
      if h : a = b then .isTrue (by rw [h])
      else .isFalse (by intro hc; apply h; injection hc)
    | .error _, .ok _ => .isFalse (by intro hc; exact Except.noConfusion hc)
    | .ok _, .error _ => .isFalse (by intro hc; exact Except.noConfusion hc)

/-- The result record of the fixture run (computable). -/
def fix4Result : RunResult :=
  (processSnapshotsBody fixArgs4 fixOracles4).toOption.getD default

set_option maxRecDepth 4000 in
/-- The fixture run completes successfully with `fix4Result`. -/
theorem fix4_run_ok : processSnapshots fixArgs4 fixOracles4 = .ok fix4Result := by
  rw [processSnapshots_of_len _ _ (by
    show (List.replicate (4 * bytesPerSnapshot) (0 : ℕ)).length = _
    rw [List.length_replicate]
    rfl)]
  with_unfolding_all rfl

/-- Witness for C8: the state-machine properties hold on the concrete
two-day fixture run. -/
theorem c8_positioning_state_machine_witness :
    fix4Result.posCalls.length = (uniqFA (fixArgs4.datetimes.map dayOf)).length ∧
    (∀ c ∈ fix4Result.posCalls, FixedCfg fixArgs4 c) ∧
    (∀ c, fix4Result.posCalls.head? = some c →
      InitCall fixArgs4 (fixOracles4.elev fixArgs4.lat fixArgs4.lon) c) ∧
    List.Chain' (CarriedFrom fixOracles4) fix4Result.posCalls :=
  c8_positioning_state_machine fixArgs4 fixOracles4 fix4Result fix4_run_ok

/-!
## C7 — the SNR clamp of the merge step
-/

/-- Fixture input: a single snapshot on day 0. -/
def fixArgs1 : Args :=
  { fixArgs4 with datetimes := [0],
                  snapshots := List.replicate bytesPerSnapshot 0 }

/-- Fixture oracles: GPS ephemeris available, and an acquisition
primitive that reports one detection with a *finite* SNR of exactly
zero. -/
def fixOracles1 : Oracles :=
  { fixOracles4 with
    eph := fun _ g => if g = Gnss.G then some [] else none
    acq := fun _ =>
      { snapshot_idx := [0], prn := [1], code_phase := [EFloat.val 0],
        snr := [EFloat.val 0], eph_idx := [] } }

/-- Counterexample for C7: an acquisition SNR of exactly zero is
finite, so the merge step's clamp (which only replaces *non-finite*
values) passes it through, and the merged SNR array handed to the
positioning call contains a zero — contradicting the claim that the
merged array contains no zero. -/
theorem c7_counterexample :
    ((processSnapshots fixArgs1 fixOracles1).toOption.map fun r =>
      dictGet (r.posCalls.getD 0 default).snr Gnss.G []) = some [EFloat.val 0] := by
  rw [processSnapshots_of_len _ _ (by
    show (List.replicate bytesPerSnapshot (0 : ℕ)).length = _
    rw [List.length_replicate]
    rfl)]
  with_unfolding_all rfl

/-- C7 (amended): after the merge step's clamp, the SNR array contains
no non-finite value: every non-finite entry has been replaced by the
smallest representable positive double `np.nextafter(0, 1)` and every
finite entry — including an exact zero — is unchanged. -/
theorem c7_snr_clamp (l : List EFloat) :
    (∀ x ∈ clampSnr l, x.isfinite = true) ∧
    (∀ i, i < l.length →
      ((l.getD i EFloat.nan).isfinite = true →
        (clampSnr l).getD i EFloat.nan = l.getD i EFloat.nan) ∧
      ((l.getD i EFloat.nan).isfinite = false →
        (clampSnr l).getD i EFloat.nan = nextafterZero)) := by
  constructor
  · intro x hx
    simp only [clampSnr, List.mem_map] at hx
    obtain ⟨y, _, rfl⟩ := hx
    by_cases hy : y.isfinite = true
    · rw [if_pos hy]
      exact hy
    · rw [if_neg hy]
      rfl
  · intro i hi
    have hlen : i < (clampSnr l).length := by simpa [clampSnr] using hi
    have hge : (clampSnr l).getD i EFloat.nan
        = if (l.getD i EFloat.nan).isfinite then l.getD i EFloat.nan else nextafterZero := by
      rw [List.getD_eq_getElem _ _ hlen, List.getD_eq_getElem _ _ hi]
      simp [clampSnr]
    constructor
    · intro hf
      rw [hge, if_pos hf]
    · intro hf
      rw [hge, if_neg (by rw [hf]; simp)]

/-- Witness for C7 (amended): a finite SNR of 2 is unchanged and a NaN
SNR becomes the smallest positive double. -/
theorem c7_snr_clamp_witness :
    (clampSnr [EFloat.val 2, EFloat.nan]).getD 0 EFloat.nan = EFloat.val 2 ∧
    (clampSnr [EFloat.val 2, EFloat.nan]).getD 1 EFloat.nan = nextafterZero :=
  ⟨((c7_snr_clamp [EFloat.val 2, EFloat.nan]).2 0 (by decide)).1 (by decide),
   ((c7_snr_clamp [EFloat.val 2, EFloat.nan]).2 1 (by decide)).2 (by decide)⟩

/-!
## C6 — the day partition
-/

/-- Membership in the first-appearance dedup is membership in the
list. -/
theorem uniqFA_mem (l : List ℤ) : ∀ x, x ∈ uniqFA l ↔ x ∈ l := by
  suffices h : ∀ n (l : List ℤ), l.length ≤ n → ∀ x, x ∈ uniqFA l ↔ x ∈ l from
    h l.length l le_rfl
  intro n
  induction n with
  | zero =>
    intro l hl x
    have : l = [] := List.length_eq_zero.mp (by omega)
    subst this
    simp [uniqFA, uniqFAF]
  | succ n ih =>
    intro l hl x
    cases l with
    | nil => simp [uniqFA, uniqFAF]
    | cons a t =>
      have hlt : (t.filter (· ≠ a)).length ≤ n := by
        have := List.length_filter_le (fun y => decide (y ≠ a)) t
        simp only [List.length_cons] at hl
        omega
      rw [uniqFA_cons]
      simp only [List.mem_cons]
      constructor
      · rintro (rfl | hx)
        · exact .inl rfl
        · exact .inr (List.mem_of_mem_filter ((ih _ hlt x).mp hx))
      · rintro (rfl | hx)
        · exact .inl rfl
        · by_cases hxa : x = a
          · exact .inl hxa
          · exact .inr ((ih _ hlt x).mpr
              (List.mem_filter.mpr ⟨hx, by simpa using hxa⟩))

/-- The first-appearance dedup has no duplicates. -/
theorem uniqFA_nodup (l : List ℤ) : (uniqFA l).Nodup := by
  suffices h : ∀ n (l : List ℤ), l.length ≤ n → (uniqFA l).Nodup from h l.length l le_rfl
  intro n
  induction n with
  | zero =>
    intro l hl
    have : l = [] := List.length_eq_zero.mp (by omega)
    subst this
    simp [uniqFA, uniqFAF]
  | succ n ih =>
    intro l hl
    cases l with
    | nil => simp [uniqFA, uniqFAF]
    | cons a t =>
      have hlt : (t.filter (· ≠ a)).length ≤ n := by
        have := List.length_filter_le (fun y => decide (y ≠ a)) t
        simp only [List.length_cons] at hl
        omega
      rw [uniqFA_cons, List.nodup_cons]
      constructor
      · intro hmem
        have := (uniqFA_mem _ a).mp hmem
        simp [List.mem_filter] at this
      · exact ih _ hlt

/-- Filtering preserves the relative order of first occurrences. -/
theorem indexOf_filter_lt (p : ℤ → Bool) (t : List ℤ) (c d : ℤ)
    (hc : c ∈ t.filter p) (hd : d ∈ t.filter p)
    (h : (t.filter p).indexOf c < (t.filter p).indexOf d) :
    t.indexOf c < t.indexOf d := by
  induction t with
  | nil => simp at hc
  | cons x t2 ih =>
    by_cases hpx : p x = true
    · rw [List.filter_cons, if_pos hpx] at hc hd h
      by_cases hcx : c = x
      · subst hcx
        rw [List.indexOf_cons_self] at h
        have hdx : d ≠ c := by
          intro hh
          rw [hh, List.indexOf_cons_self] at h
          omega
        rw [List.indexOf_cons_self, List.indexOf_cons_ne _ (Ne.symm hdx)]
        omega
      · by_cases hdx : d = x
        · subst hdx
          rw [List.indexOf_cons_self] at h
          omega
        · rw [List.indexOf_cons_ne _ (fun hh => hcx hh.symm),
            List.indexOf_cons_ne _ (fun hh => hdx hh.symm)] at h
          have hc2 : c ∈ t2.filter p := by
            rcases List.mem_cons.mp hc with h1 | h1
            · exact absurd h1 hcx
            · exact h1
          have hd2 : d ∈ t2.filter p := by
            rcases List.mem_cons.mp hd with h1 | h1
            · exact absurd h1 hdx
            · exact h1
          rw [List.indexOf_cons_ne _ (fun hh => hcx hh.symm),
            List.indexOf_cons_ne _ (fun hh => hdx hh.symm)]
          have := ih hc2 hd2 (by omega)
          omega
    · rw [List.filter_cons, if_neg hpx] at hc hd h
      have hcx : c ≠ x := by
        intro hh
        rw [← hh] at hpx
        exact hpx (List.mem_filter.mp hc).2
      have hdx : d ≠ x := by
        intro hh
        rw [← hh] at hpx
        exact hpx (List.mem_filter.mp hd).2
      rw [List.indexOf_cons_ne _ (Ne.symm hcx), List.indexOf_cons_ne _ (Ne.symm hdx)]
      have := ih hc hd h
      omega

/-- The first-appearance dedup lists the distinct values in strictly
increasing order of their first occurrence in the input. -/
theorem uniqFA_indexOf_pairwise (l : List ℤ) :
    List.Pairwise (fun a b => l.indexOf a < l.indexOf b) (uniqFA l) := by
  suffices h : ∀ n (l : List ℤ), l.length ≤ n →
      List.Pairwise (fun a b => l.indexOf a < l.indexOf b) (uniqFA l) from
    h l.length l le_rfl
  intro n
  induction n with
  | zero =>
    intro l hl
    have : l = [] := List.length_eq_zero.mp (by omega)
    subst this
    simp [uniqFA, uniqFAF]
  | succ n ih =>
    intro l hl
    cases l with
    | nil => simp [uniqFA, uniqFAF]
    | cons a t =>
      have hlt : (t.filter (· ≠ a)).length ≤ n := by
        have := List.length_filter_le (fun y => decide (y ≠ a)) t
        simp only [List.length_cons] at hl
        omega
      rw [uniqFA_cons, List.pairwise_cons]
      constructor
      · intro b hb
        have hbf : b ∈ t.filter (· ≠ a) := (uniqFA_mem _ b).mp hb
        have hba : b ≠ a := by simpa using (List.mem_filter.mp hbf).2
        rw [List.indexOf_cons_self, List.indexOf_cons_ne _ (Ne.symm hba)]
        omega
      · refine (ih _ hlt).imp_of_mem ?_
        intro c d hcm hdm hcd
        have hcf : c ∈ t.filter (· ≠ a) := (uniqFA_mem _ c).mp hcm
        have hdf : d ∈ t.filter (· ≠ a) := (uniqFA_mem _ d).mp hdm
        have hca : c ≠ a := by simpa using (List.mem_filter.mp hcf).2
        have hda : d ≠ a := by simpa using (List.mem_filter.mp hdf).2
        have ht := indexOf_filter_lt _ t c d hcf hdf hcd
        rw [List.indexOf_cons_ne _ (Ne.symm hca), List.indexOf_cons_ne _ (Ne.symm hda)]
        omega

/-- In a list sorted by a transitive antisymmetric relation, all
copies of the head value form a contiguous run at the front. -/
theorem run_head (r : ℤ → ℤ → Prop)
    (hanti : ∀ x y, r x y → r y x → x = y) (a : ℤ) :
    ∀ t : List ℤ, (a :: t).Pairwise r →
      t = List.replicate (t.count a) a ++ t.filter (· ≠ a) := by
  intro t
  induction t with
  | nil => intro _; rfl
  | cons b t2 ih =>
    intro hp
    by_cases hba : b = a
    · subst hba
      rw [List.count_cons_self, List.replicate_succ, List.cons_append,
        List.filter_cons, if_neg (by simp)]
      congr 1
      exact ih (hp.sublist (List.sublist_cons_self b (b :: t2)))
    · have hp2 := (List.pairwise_cons.mp hp).2
      have hab : r a b := (List.pairwise_cons.mp hp).1 b (by simp)
      have hnotin : a ∉ b :: t2 := by
        intro hmem
        rcases List.mem_cons.mp hmem with h1 | h1
        · exact hba h1.symm
        · have hbx : r b a := (List.pairwise_cons.mp hp2).1 a h1
          exact hba (hanti b a hbx hab)
      rw [List.count_eq_zero.mpr hnotin,
        List.filter_eq_self.mpr (fun x hx => by
          simp only [ne_eq, decide_eq_true_eq]
          intro hxa
          exact hnotin (hxa ▸ hx))]
      simp

/-- For a list sorted by a transitive antisymmetric relation, taking
the distinct values in first-appearance order and replacing each by as
many copies as it occurs reconstructs the list — i.e. the contiguous
per-day slices of first-appearance-ordered sizes are exactly the day
groups, each snapshot appearing exactly once and in order. -/
theorem join_rep (r : ℤ → ℤ → Prop)
    (hanti : ∀ x y, r x y → r y x → x = y) (l : List ℤ) (hp : l.Pairwise r) :
    ((uniqFA l).map fun d => List.replicate (l.count d) d).flatten = l := by
  suffices h : ∀ n (l : List ℤ), l.length ≤ n → l.Pairwise r →
      ((uniqFA l).map fun d => List.replicate (l.count d) d).flatten = l from
    h l.length l le_rfl hp
  intro n
  induction n with
  | zero =>
    intro l hl _
    have : l = [] := List.length_eq_zero.mp (by omega)
    subst this
    simp [uniqFA, uniqFAF]
  | succ n ih =>
    intro l hl hpl
    cases l with
    | nil => simp [uniqFA, uniqFAF]
    | cons a t =>
      have hlt : (t.filter (· ≠ a)).length ≤ n := by
        have := List.length_filter_le (fun y => decide (y ≠ a)) t
        simp only [List.length_cons] at hl
        omega
      rw [uniqFA_cons]
      simp only [List.map_cons, List.flatten_cons]
      have hcong : ((uniqFA (t.filter (· ≠ a))).map fun d =>
            List.replicate ((a :: t).count d) d)
          = (uniqFA (t.filter (· ≠ a))).map fun d =>
            List.replicate ((t.filter (· ≠ a)).count d) d := by
        apply List.map_congr_left
        intro d hd
        have hdf : d ∈ t.filter (· ≠ a) := (uniqFA_mem _ d).mp hd
        have hda : d ≠ a := by simpa using (List.mem_filter.mp hdf).2
        rw [List.count_cons_of_ne hda, List.count_filter (by simpa using hda)]
      rw [hcong,
        ih _ hlt (hpl.sublist ((List.filter_sublist t).trans (List.sublist_cons_self a t))),
        List.count_cons_self, List.replicate_succ, List.cons_append]
      congr 1
      exact (run_head r hanti a t hpl).symm

/-- Truncation to calendar days is monotone. -/
theorem dayOf_mono {a b : ℤ} (h : a ≤ b) : dayOf a ≤ dayOf b :=
  Int.ediv_le_ediv (by decide) h

/-- C6: for a timestamp sequence that is globally monotonic
(non-decreasing or non-increasing), the day grouping is a proper
partition: the distinct calendar days (no duplicates, exactly the days
occurring in the input) are processed in strictly increasing order of
first appearance, and concatenating, in that order, one contiguous
block per day of exactly that day's snapshot count reconstructs the
full per-snapshot day sequence — every snapshot in exactly one
segment, in its original relative order. -/
theorem c6_day_partition (ts : List ℤ)
    (hmono : List.Pairwise (· ≤ ·) ts ∨ List.Pairwise (· ≥ ·) ts) :
    (uniqFA (ts.map dayOf)).Nodup ∧
    (∀ d, d ∈ uniqFA (ts.map dayOf) ↔ d ∈ ts.map dayOf) ∧
    (((uniqFA (ts.map dayOf)).map fun d =>
        List.replicate ((ts.map dayOf).count d) d).flatten = ts.map dayOf) ∧
    List.Pairwise (fun a b => (ts.map dayOf).indexOf a < (ts.map dayOf).indexOf b)
      (uniqFA (ts.map dayOf)) := by
  refine ⟨uniqFA_nodup _, uniqFA_mem _, ?_, uniqFA_indexOf_pairwise _⟩
  rcases hmono with h | h
  · exact join_rep (· ≤ ·) (fun _ _ => le_antisymm) _
      (h.map dayOf fun _ _ hab => dayOf_mono hab)
  · exact join_rep (· ≥ ·) (fun _ _ h1 h2 => le_antisymm h2 h1) _
      (h.map dayOf fun _ _ hab => dayOf_mono hab)

/-- Witness for C6: a reversed-chronological input spanning two days
is partitioned into its two days in first-appearance order. -/
theorem c6_day_partition_witness :
    (uniqFA ([2 * nsPerDay + 1, 2 * nsPerDay, 0].map dayOf)).Nodup ∧
    (∀ d, d ∈ uniqFA ([2 * nsPerDay + 1, 2 * nsPerDay, 0].map dayOf)
      ↔ d ∈ [2 * nsPerDay + 1, 2 * nsPerDay, 0].map dayOf) ∧
    (((uniqFA ([2 * nsPerDay + 1, 2 * nsPerDay, 0].map dayOf)).map fun d =>
        List.replicate (([2 * nsPerDay + 1, 2 * nsPerDay, 0].map dayOf).count d) d).flatten
      = [2 * nsPerDay + 1, 2 * nsPerDay, 0].map dayOf) ∧
    List.Pairwise
      (fun a b => ([2 * nsPerDay + 1, 2 * nsPerDay, 0].map dayOf).indexOf a
        < ([2 * nsPerDay + 1, 2 * nsPerDay, 0].map dayOf).indexOf b)
      (uniqFA ([2 * nsPerDay + 1, 2 * nsPerDay, 0].map dayOf)) :=
  c6_day_partition [2 * nsPerDay + 1, 2 * nsPerDay, 0] (Or.inr (by decide))

/-!
## C4 and C5 — the frequency-bias estimator loop
-/

/-- Consecutive trace entries of the estimator loop chain: each
iteration starts from the inlier count, frequency-error estimate and
snapshot position the previous iteration produced. -/
def EstChain (p q : EstIter) : Prop :=
  q.entryInliers = p.postInliers ∧ q.entryFe = p.newFe ∧ q.idx = p.idx + 1

/-- Invariant of the estimator's loop state: one trace entry and one
sample per processed snapshot, at most 100 snapshots processed, every
executed iteration entered with fewer than 5 inliers and fewer than
100 processed snapshots, chained trace, and the loop variables equal
to those of the last iteration (or their initial values). -/
def EstInv (st : EstState) : Prop :=
  st.trace.length = st.total ∧ st.samples.length = st.total ∧ st.total ≤ 100 ∧
  (∀ it ∈ st.trace, it.entryInliers < 5 ∧ it.idx < 100) ∧
  List.Chain' EstChain st.trace ∧
  (match st.trace.getLast? with
   | none => st.total = 0 ∧ st.nInliers = 0 ∧ st.fe = EFloat.val 0 ∧ st.mask = none
   | some it => it.postInliers = st.nInliers ∧ it.newFe = st.fe ∧
       it.idx + 1 = st.total ∧ st.mask = some it.postMask)

theorem estIterOf_entryFe (o : Oracles) (a : Args) (h0 : EFloat) (st : EstState) :
    (estIterOf o a h0 st).entryFe = st.fe := rfl

theorem estIterOf_entryInliers (o : Oracles) (a : Args) (h0 : EFloat) (st : EstState) :
    (estIterOf o a h0 st).entryInliers = st.nInliers := rfl

theorem estIterOf_idx (o : Oracles) (a : Args) (h0 : EFloat) (st : EstState) :
    (estIterOf o a h0 st).idx = st.total := rfl

/-- One estimator step preserves the loop invariant, provided the loop
guard held on entry. -/
theorem estStep_inv (o : Oracles) (a : Args) (h0 : EFloat) (st : EstState)
    (h : EstInv st) (h5 : st.nInliers < 5) (h100 : st.total < 100) :
    EstInv (estStep o a h0 st) := by
  obtain ⟨hlt, hls, hle, hall, hch, hlast⟩ := h
  refine ⟨?_, ?_, ?_, ?_, ?_, ?_⟩
  · show (st.trace ++ [estIterOf o a h0 st]).length = st.total + 1
    simp [hlt]
  · show (st.samples ++ [(estIterOf o a h0 st).sample]).length = st.total + 1
    simp [hls]
  · show st.total + 1 ≤ 100
    omega
  · intro it hit
    rcases List.mem_append.mp hit with hit | hit
    · exact hall it hit
    · rw [List.mem_singleton.mp hit]
      exact ⟨by rw [estIterOf_entryInliers]; omega, by rw [estIterOf_idx]; omega⟩
  · show List.Chain' EstChain (st.trace ++ [estIterOf o a h0 st])
    rw [List.chain'_append]
    refine ⟨hch, List.chain'_singleton _, ?_⟩
    intro x hx y hy
    simp only [List.head?_cons, Option.mem_def, Option.some.injEq] at hy
    cases hl : st.trace.getLast? with
    | none => rw [hl] at hx; simp at hx
    | some x0 =>
      rw [hl] at hx
      simp only [Option.mem_def, Option.some.injEq] at hx
      rw [hl] at hlast
      rw [← hy, ← hx]
      exact ⟨by rw [estIterOf_entryInliers, hlast.1],
        by rw [estIterOf_entryFe, hlast.2.1],
        by rw [estIterOf_idx, ← hlast.2.2.1]⟩
  · show (match (st.trace ++ [estIterOf o a h0 st]).getLast? with
      | none => st.total + 1 = 0 ∧ _ ∧ _ ∧ _
      | some it => it.postInliers = (estStep o a h0 st).nInliers ∧
          it.newFe = (estStep o a h0 st).fe ∧ it.idx + 1 = st.total + 1 ∧
          (estStep o a h0 st).mask = some it.postMask)
    rw [List.getLast?_concat]
    exact ⟨rfl, rfl, rfl, rfl⟩

/-- The within-day loop preserves any invariant that each guarded step
preserves. -/
theorem estRunDay_preserve (o : Oracles) (a : Args) (h0 : EFloat) (I : EstState → Prop)
    (hstep : ∀ st, I st → st.nInliers < 5 → st.total < 100 → I (estStep o a h0 st)) :
    ∀ fuel st, I st → I (estRunDay o a h0 fuel st) := by
  intro fuel
  induction fuel with
  | zero => intro st h; exact h
  | succ f ih =>
    intro st h
    simp only [estRunDay]
    by_cases hc : st.nInliers < 5 ∧ st.total < 100
    · rw [if_pos hc]
      exact ih _ (hstep st h hc.1 hc.2)
    · rw [if_neg hc]
      exact h

/-- The day loop preserves any invariant that each guarded step
preserves (including across the early bare return). -/
theorem estRunDays_preserve (o : Oracles) (a : Args) (h0 : EFloat) (dates : List ℤ)
    (I : EstState → Prop)
    (hstep : ∀ st, I st → st.nInliers < 5 → st.total < 100 → I (estStep o a h0 st)) :
    ∀ uds st, I st → I (estRunDays o a h0 dates uds st).2 := by
  intro uds
  induction uds with
  | nil => intro st h; exact h
  | cons d rest ih =>
    intro st h
    simp only [estRunDays]
    by_cases hav : gnssOrder.filter (fun g => (o.eph d g).isSome) = []
    · rw [if_pos hav]
      exact h
    · rw [if_neg hav]
      exact ih _ (estRunDay_preserve o a h0 I hstep _ _ h)

/-- The final state of the estimator is the final state of its day
loop, regardless of how the function returns. -/
theorem estimateIF_snd (o : Oracles) (a : Args) (h0 : EFloat) :
    (estimateIF o a h0).2
      = (estRunDays o a h0 (a.datetimes.map dayOf)
          (uniqFA (a.datetimes.map dayOf)) estInit).2 := by
  simp only [estimateIF]
  rcases hr : estRunDays o a h0 (a.datetimes.map dayOf)
      (uniqFA (a.datetimes.map dayOf)) estInit with ⟨b, st⟩
  cases b
  · cases hm : st.mask <;> simp [hm]
  · simp

/-- The number of processed snapshots never decreases within a day. -/
theorem estRunDay_total_le (o : Oracles) (a : Args) (h0 : EFloat) :
    ∀ fuel st, st.total ≤ (estRunDay o a h0 fuel st).total := by
  intro fuel
  induction fuel with
  | zero => intro st; exact le_rfl
  | succ f ih =>
    intro st
    simp only [estRunDay]
    by_cases hc : st.nInliers < 5 ∧ st.total < 100
    · rw [if_pos hc]
      have h1 : (estStep o a h0 st).total = st.total + 1 := rfl
      have := ih (estStep o a h0 st)
      omega
    · rw [if_neg hc]

/-- The number of processed snapshots never decreases across days. -/
theorem estRunDays_total_le (o : Oracles) (a : Args) (h0 : EFloat) (dates : List ℤ) :
    ∀ uds st, st.total ≤ (estRunDays o a h0 dates uds st).2.total := by
  intro uds
  induction uds with
  | nil => intro st; exact le_rfl
  | cons d rest ih =>
    intro st
    simp only [estRunDays]
    by_cases hav : gnssOrder.filter (fun g => (o.eph d g).isSome) = []
    · rw [if_pos hav]
    · rw [if_neg hav]
      have h1 := estRunDay_total_le o a h0 (dates.count d) st
      have h2 := ih (estRunDay o a h0 (dates.count d) st)
      omega

/-- If every day has ephemeris data for at least one constellation,
the estimator never takes the bare-return path. -/
theorem estRunDays_no_bare (o : Oracles) (a : Args) (h0 : EFloat) (dates : List ℤ) :
    ∀ uds st, (∀ d ∈ uds, ∃ g, (o.eph d g).isSome = true) →
      (estRunDays o a h0 dates uds st).1 = false := by
  intro uds
  induction uds with
  | nil => intro st _; rfl
  | cons d rest ih =>
    intro st hav
    obtain ⟨g, hg⟩ := hav d (List.mem_cons_self d rest)
    have hmem : g ∈ gnssOrder.filter (fun g => (o.eph d g).isSome) :=
      List.mem_filter.mpr ⟨by cases g <;> simp [gnssOrder], hg⟩
    have hne : gnssOrder.filter (fun g => (o.eph d g).isSome) ≠ [] := by
      intro hemp
      rw [hemp] at hmem
      simp at hmem
    simp only [estRunDays]
    rw [if_neg hne]
    exact ih _ fun d2 h2 => hav d2 (List.mem_cons_of_mem _ h2)

/-- A day with at least one snapshot left and an open guard processes
at least one snapshot. -/
theorem estRunDay_pos (o : Oracles) (a : Args) (h0 : EFloat) (c : ℕ) (st : EstState)
    (h5 : st.nInliers < 5) (h100 : st.total < 100) :
    1 ≤ (estRunDay o a h0 (c + 1) st).total := by
  simp only [estRunDay]
  rw [if_pos ⟨h5, h100⟩]
  have h1 : (estStep o a h0 st).total = st.total + 1 := rfl
  have := estRunDay_total_le o a h0 c (estStep o a h0 st)
  omega

/-- The initial estimator state satisfies the loop invariant. -/
theorem estInit_inv : EstInv estInit :=
  ⟨rfl, rfl, by decide, by simp [estInit], by simp [estInit], ⟨rfl, rfl, rfl, rfl⟩⟩

/-- The final estimator state satisfies the loop invariant. -/
theorem estimateIF_inv (o : Oracles) (a : Args) (h0 : EFloat) :
    EstInv (estimateIF o a h0).2 := by
  rw [estimateIF_snd]
  exact estRunDays_preserve o a h0 (a.datetimes.map dayOf) EstInv
    (fun st h h5 h100 => estStep_inv o a h0 st h h5 h100) _ _ estInit_inv

/-- On a nonempty input, the estimator's loop processes at least one
snapshot when every day has ephemeris data. -/
theorem estimateIF_total_pos (o : Oracles) (a : Args) (h0 : EFloat)
    (hne : a.datetimes ≠ [])
    (hav : ∀ d ∈ uniqFA (a.datetimes.map dayOf), ∃ g, (o.eph d g).isSome = true) :
    1 ≤ (estimateIF o a h0).2.total := by
  rw [estimateIF_snd]
  cases hts : a.datetimes with
  | nil => exact absurd hts hne
  | cons t ts =>
    rw [hts] at hav
    simp only [List.map_cons] at hav ⊢
    rw [uniqFA_cons] at hav ⊢
    obtain ⟨g, hg⟩ := hav (dayOf t) (List.mem_cons_self _ _)
    have hmem : g ∈ gnssOrder.filter (fun g2 => (o.eph (dayOf t) g2).isSome) :=
      List.mem_filter.mpr ⟨by cases g <;> simp [gnssOrder], hg⟩
    have havail : gnssOrder.filter (fun g2 => (o.eph (dayOf t) g2).isSome) ≠ [] := by
      intro hemp
      rw [hemp] at hmem
      simp at hmem
    simp only [estRunDays]
    rw [if_neg havail]
    have hcount : (dayOf t :: ts.map dayOf).count (dayOf t)
        = (ts.map dayOf).count (dayOf t) + 1 := List.count_cons_self _ _
    rw [hcount]
    have h1 := estRunDay_pos o a h0 ((ts.map dayOf).count (dayOf t)) estInit
      (by simp [estInit]) (by simp [estInit])
    have h2 := estRunDays_total_le o a h0 (dayOf t :: ts.map dayOf)
      (uniqFA ((ts.map dayOf).filter (· ≠ dayOf t)))
      (estRunDay o a h0 ((ts.map dayOf).count (dayOf t) + 1) estInit)
    omega

/-- C4 (amended): for every input with `intermediate_frequency` unset,
the estimator's sampling loop processes at most 100 snapshot samples
in total across all days, and every executed iteration is entered with
fewer than 5 inliers (samples within ±25 Hz of the running median) —
it stops sampling as soon as 5 inliers exist — with consecutive
iterations chained through the running estimate and inlier count; and
provided the input is nonempty and every day it examines has ephemeris
data for at least one constellation, it returns the
`(intermediate_frequency, inlier_indices)` pair whose frequency is
nominal plus the final frequency-error estimate when that estimate is
finite, and the nominal value unchanged otherwise.  (When some
examined day has no ephemeris at all, the estimator instead returns
the bare nominal scalar regardless of the estimate — see the
counterexample and C10.) -/
theorem c4_estimator_termination (o : Oracles) (a : Args) (h0 : EFloat)
    (hne : a.datetimes ≠ [])
    (hav : ∀ d ∈ uniqFA (a.datetimes.map dayOf), ∃ g, (o.eph d g).isSome = true) :
    (estimateIF o a h0).2.trace.length ≤ 100 ∧
    (estimateIF o a h0).2.samples.length = (estimateIF o a h0).2.trace.length ∧
    (∀ it ∈ (estimateIF o a h0).2.trace, it.entryInliers < 5 ∧ it.idx < 100) ∧
    List.Chain' EstChain (estimateIF o a h0).2.trace ∧
    (estimateIF o a h0).1 =
      .pair (if (estimateIF o a h0).2.fe.isfinite then
          nominalIFE.add (estimateIF o a h0).2.fe
        else nominalIFE)
        (whereTrue (((estimateIF o a h0).2.mask).getD [])) := by
  obtain ⟨hlt, hls, hle, hall, hch, hlast⟩ := estimateIF_inv o a h0
  refine ⟨by omega, by omega, hall, hch, ?_⟩
  have htot := estimateIF_total_pos o a h0 hne hav
  have hnb := estRunDays_no_bare o a h0 (a.datetimes.map dayOf)
    (uniqFA (a.datetimes.map dayOf)) estInit hav
  have hsnd := estimateIF_snd o a h0
  rcases hr : estRunDays o a h0 (a.datetimes.map dayOf)
      (uniqFA (a.datetimes.map dayOf)) estInit with ⟨b, st⟩
  rw [hr] at hnb hsnd
  simp only at hnb hsnd
  subst hnb
  have hm : ∃ m, st.mask = some m := by
    rw [hsnd] at hlast htot
    cases hgl : st.trace.getLast? with
    | none =>
      rw [hgl] at hlast
      omega
    | some it =>
      rw [hgl] at hlast
      exact ⟨it.postMask, hlast.2.2.2⟩
  obtain ⟨m, hmm⟩ := hm
  show (estimateIF o a h0).1 = _
  simp only [estimateIF]
  rw [hr]
  simp only [Bool.false_eq_true, if_false, hmm, hsnd]
  rfl

/-- Counterexample for C4: one snapshot on day 0 (GPS ephemeris
present, frequency-error sample 100 Hz) and one snapshot on day 1 with
no ephemeris at all.  After day 0 the frequency-error estimate is the
finite value 50 Hz (the single inlier zero-padded to `min(5, 2) = 2`
and averaged), yet the estimator returns the bare nominal value —
not nominal + 50 — and the caller's two-value unpacking fails, so
`process_snapshots` errors instead of returning output arrays. -/
theorem c4_counterexample :
    (estimateIF fixOracles2 fixArgs2 (EFloat.val 0)).2.fe = EFloat.val 50 ∧
    EFloat.isfinite (estimateIF fixOracles2 fixArgs2 (EFloat.val 0)).2.fe = true ∧
    (estimateIF fixOracles2 fixArgs2 (EFloat.val 0)).1 = .bare nominalIFE ∧
    EFloat.add nominalIFE (EFloat.val 50) ≠ nominalIFE ∧
    processSnapshots fixArgs2 fixOracles2 = .error .unpackTypeError := by
  refine ⟨by with_unfolding_all rfl, by with_unfolding_all rfl,
    by with_unfolding_all rfl, by with_unfolding_all decide, ?_⟩
  rw [processSnapshots_of_len _ _ (by
    show (List.replicate (2 * bytesPerSnapshot) (0 : ℕ)).length = _
    rw [List.length_replicate]
    rfl)]
  with_unfolding_all rfl

/-- Witness for C4 (amended): the bound, the early-stop guard and the
returned pair hold on the two-snapshot single-day fixture. -/
theorem c4_estimator_termination_witness :
    (estimateIF fixOracles2s fixArgs2s (EFloat.val 0)).2.trace.length ≤ 100 ∧
    (estimateIF fixOracles2s fixArgs2s (EFloat.val 0)).2.samples.length
      = (estimateIF fixOracles2s fixArgs2s (EFloat.val 0)).2.trace.length ∧
    (∀ it ∈ (estimateIF fixOracles2s fixArgs2s (EFloat.val 0)).2.trace,
      it.entryInliers < 5 ∧ it.idx < 100) ∧
    List.Chain' EstChain (estimateIF fixOracles2s fixArgs2s (EFloat.val 0)).2.trace ∧
    (estimateIF fixOracles2s fixArgs2s (EFloat.val 0)).1 =
      .pair (if (estimateIF fixOracles2s fixArgs2s (EFloat.val 0)).2.fe.isfinite then
          nominalIFE.add (estimateIF fixOracles2s fixArgs2s (EFloat.val 0)).2.fe
        else nominalIFE)
        (whereTrue (((estimateIF fixOracles2s fixArgs2s (EFloat.val 0)).2.mask).getD [])) :=
  c4_estimator_termination fixOracles2s fixArgs2s (EFloat.val 0) (by decide)
    (fun d hd => ⟨Gnss.G, by with_unfolding_all rfl⟩)

/-- Selecting the entries of a list at the `true` positions of an
equally long mask yields as many entries as the mask has `true`s. -/
theorem filterMap_if_length (xs : List EFloat) (ms : List Bool) (h : xs.length = ms.length) :
    ((xs.zip ms).filterMap fun p => if p.2 then some p.1 else none).length
      = ms.count true := by
  induction xs generalizing ms with
  | nil =>
    cases ms with
    | nil => rfl
    | cons m ms => simp at h
  | cons x xs ih =>
    cases ms with
    | nil => simp at h
    | cons m ms =>
      simp only [List.length_cons] at h
      have hih := ih ms (by omega)
      cases m <;>
        simp [List.zip_cons_cons, List.filterMap_cons, List.count_cons, hih]

/-- The per-iteration properties of the estimator's window and
padding: the 53-point search window is centred on the *running*
frequency-error estimate with half-width `1300 - 150 * min(inliers, 4)`
Hz, and the inlier subset is left-padded with zeros to
`min(5, n_snapshots)` elements (its final length is the maximum of
that target and the inlier count) before its mean becomes the updated
estimate. -/
def C5P (a : Args) (it : EstIter) : Prop :=
  it.binsLo = it.entryFe.addQ (-(1300 - 150 * ((min it.entryInliers 4 : ℕ) : ℚ))) ∧
  it.binsHi = it.entryFe.addQ (1300 - 150 * ((min it.entryInliers 4 : ℕ) : ℚ)) ∧
  it.binsCount = 53 ∧
  it.padded.length = max (min 5 a.datetimes.length) it.postInliers ∧
  it.padded.take (min 5 a.datetimes.length - it.postInliers)
    = List.replicate (min 5 a.datetimes.length - it.postInliers) (EFloat.val 0) ∧
  it.newFe = npMean it.padded

/-- Every iteration record the estimator produces satisfies the window
and padding properties. -/
theorem estIterOf_c5 (o : Oracles) (a : Args) (h0 : EFloat) (st : EstState) :
    C5P a (estIterOf o a h0 st) := by
  refine ⟨rfl, rfl, rfl, ?_, ?_, rfl⟩
  · show (List.replicate (min 5 a.datetimes.length - (estIterOf o a h0 st).postInliers)
        (EFloat.val 0)
        ++ ((st.samples ++ [(estIterOf o a h0 st).sample]).zip
            (estIterOf o a h0 st).postMask).filterMap
          (fun p => if p.2 then some p.1 else none)).length
      = max (min 5 a.datetimes.length) (estIterOf o a h0 st).postInliers
    rw [List.length_append, List.length_replicate,
      filterMap_if_length _ _ (by
        show (st.samples ++ [(estIterOf o a h0 st).sample]).length
          = ((st.samples ++ [(estIterOf o a h0 st).sample]).map fun x =>
              EFloat.leB ((npMedian (st.samples ++ [(estIterOf o a h0 st).sample])).addQ (-25)) x
                && EFloat.leB x
                  ((npMedian (st.samples ++ [(estIterOf o a h0 st).sample])).addQ 25)).length
        rw [List.length_map])]
    show min 5 a.datetimes.length - (estIterOf o a h0 st).postInliers
        + (estIterOf o a h0 st).postInliers
      = max (min 5 a.datetimes.length) (estIterOf o a h0 st).postInliers
    omega
  · have hl := List.take_left
      (List.replicate (min 5 a.datetimes.length - (estIterOf o a h0 st).postInliers)
        (EFloat.val 0))
      (((st.samples ++ [(estIterOf o a h0 st).sample]).zip
          (estIterOf o a h0 st).postMask).filterMap
        fun p => if p.2 then some p.1 else none)
    rw [List.length_replicate] at hl
    exact hl

/-- C5 (amended): in every iteration of the frequency bias estimator,
the acquisition search window is the *current frequency-error
estimate* ± (1300 − 150 × min(inlier count, 4)) Hz — centred on the
nominal frequency only while the estimate is still zero — sampled at
exactly 53 points; and after each new sample the inlier subset is
left-padded with zeros to `min(5, total snapshot count)` elements
(exactly 5 only when the run has at least 5 snapshots) before its mean
is taken as the updated frequency-error estimate. -/
theorem c5_window_padding (o : Oracles) (a : Args) (h0 : EFloat) :
    ∀ it ∈ (estimateIF o a h0).2.trace, C5P a it := by
  rw [estimateIF_snd]
  refine estRunDays_preserve o a h0 (a.datetimes.map dayOf)
    (fun st => ∀ it ∈ st.trace, C5P a it) ?_ _ _ (by simp [estInit])
  intro st h _ _ it hit
  rcases List.mem_append.mp hit with hit | hit
  · exact h it hit
  · rw [List.mem_singleton.mp hit]
    exact estIterOf_c5 o a h0 st

/-- Counterexample for C5: two same-day snapshots whose frequency-error
samples are both 100 Hz.  The first iteration pads the single inlier
to `min(5, 2) = 2` elements — not 5 — giving the estimate
`(0 + 100) / 2 = 50`; the second iteration's window is therefore
`50 ± 1150` = `[-1100, 1200]` (centred on the running estimate), not
the `±1150` around the nominal frequency that the claim states. -/
theorem c5_counterexample :
    ((estimateIF fixOracles2s fixArgs2s (EFloat.val 0)).2.trace.getD 1 default).binsLo
      = EFloat.val (-1100) ∧
    ((estimateIF fixOracles2s fixArgs2s (EFloat.val 0)).2.trace.getD 1 default).entryInliers
      = 1 ∧
    EFloat.val (-1100) ≠ EFloat.val (-(1300 - 150 * 1)) ∧
    ((estimateIF fixOracles2s fixArgs2s (EFloat.val 0)).2.trace.getD 0 default).padded.length
      = 2 ∧
    ((estimateIF fixOracles2s fixArgs2s (EFloat.val 0)).2.trace.getD 0 default).postInliers
      = 1 ∧
    (2 : ℕ) ≠ 5 :=
  ⟨by with_unfolding_all rfl, by with_unfolding_all rfl, by with_unfolding_all decide,
   by with_unfolding_all rfl, by with_unfolding_all rfl, by decide⟩

set_option maxRecDepth 10000 in
/-- Witness for C5 (amended): the window and padding properties hold
for the first iteration of the two-snapshot fixture run. -/
theorem c5_window_padding_witness :
    C5P fixArgs2s
      ((estimateIF fixOracles2s fixArgs2s (EFloat.val 0)).2.trace.getD 0 default) :=
  c5_window_padding fixOracles2s fixArgs2s (EFloat.val 0)
    ((estimateIF fixOracles2s fixArgs2s (EFloat.val 0)).2.trace.getD 0 default)
    (by with_unfolding_all decide)

/-!
## C10 — bare scalar return on a missing-ephemeris first day
-/

/-- C10: when `intermediate_frequency` is unset and the earliest day
of the run has no ephemeris file for any of the three constellations,
`_estimate_intermediate_frequency2` returns the bare nominal scalar
instead of the `(frequency, inlier_indices)` pair of its normal path,
so the two-value unpacking in `process_snapshots` raises a `TypeError`
and the run produces no output arrays. -/
theorem c10_bare_scalar_crash (a : Args) (o : Oracles)
    (hIF : a.interFreq = none)
    (hlen : a.snapshots.length = a.datetimes.length * bytesPerSnapshot)
    (hne : a.datetimes ≠ [])
    (hnoeph : ∀ g, o.eph (dayOf (a.datetimes.headD 0)) g = none) :
    (estimateIF o a (o.elev a.lat a.lon)).1 = .bare nominalIFE ∧
    processSnapshots a o = .error .unpackTypeError := by
  have hbare : estimateIF o a (o.elev a.lat a.lon) = (.bare nominalIFE, estInit) := by
    cases hts : a.datetimes with
    | nil => exact absurd hts hne
    | cons t ts =>
      have hhead : a.datetimes.headD 0 = t := by rw [hts]; rfl
      rw [hhead] at hnoeph
      have havail : gnssOrder.filter (fun g => (o.eph (dayOf t) g).isSome) = [] := by
        apply List.filter_eq_nil_iff.mpr
        intro g _
        rw [hnoeph g]
        simp
      simp only [estimateIF, hts, List.map_cons, uniqFA_cons, estRunDays]
      rw [if_pos havail]
      rfl
  constructor
  · rw [hbare]
  · rw [processSnapshots_of_len a o hlen]
    simp only [processSnapshotsBody, hIF, hbare]

/-- Fixture oracles with no ephemeris data at all. -/
def fixOraclesNone : Oracles :=
  { fixOracles2 with eph := fun _ _ => none }

/-- Witness for C10: on the two-snapshot fixture with no ephemeris
data, the estimator returns the bare nominal scalar and the run
errors. -/
theorem c10_bare_scalar_crash_witness :
    (estimateIF fixOraclesNone fixArgs2
      (fixOraclesNone.elev fixArgs2.lat fixArgs2.lon)).1 = .bare nominalIFE ∧
    processSnapshots fixArgs2 fixOraclesNone = .error .unpackTypeError :=
  c10_bare_scalar_crash fixArgs2 fixOraclesNone rfl
    (by
      show (List.replicate (2 * bytesPerSnapshot) (0 : ℕ)).length = _
      rw [List.length_replicate]
      rfl)
    (by decide)
    (fun g => rfl)

end Snapper
